import Mathlib

/-!
Shallow embedding of the fastio package (FastReader / FastWriter from
fastio/writer.go and the reader part of the same file).

Bytes are modelled as natural numbers (values 0..255 in practice).  Go's
io.Reader is modelled as a finite script of responses: each call to
Read(buf) pops one response, which carries the reported count `n` (an Int,
because a misbehaving reader may report a negative count), the bytes it
actually placed at the front of the buffer, and an optional error.  An
exhausted script behaves as a source that keeps reporting zero bytes and
no error.  Go's io.Writer is modelled symmetrically as a sink with a
response script, a log of received bytes and a log of the calls made.

Go `int` arithmetic in NextInt is 64-bit two's-complement; it is modelled
by `wrap64` applied after every arithmetic step.
-/

set_option maxHeartbeats 1000000
set_option maxRecDepth 8000

/-- Error values: end of input (io.EOF), an arbitrary source/sink failure
(identified by a code), io.ErrShortWrite, a value-level error created by
errors.New with the given message, and the writerError wrapper the writer
stores in its sticky field.  `noFuel` is the marker returned by the fueled
loop bodies when the fuel runs out (unreachable for the fuel the API
entry points supply in the situations the theorems cover). -/
inductive Err where
  | eof
  | ioErr (code : Nat)
  | shortWrite
  | msg (s : String)
  | wrap (e : Err)
  | noFuel
deriving DecidableEq, Repr

/-- One response of a byte source to a Read call: the reported count, the
bytes actually written at the front of the buffer, and the reported error. -/
structure ReadResp where
  n : Int
  data : List Nat
  err : Option Err
deriving DecidableEq, Repr

/-- State of fastio.FastReader: remaining source script, backing buffer
(fixed length = capacity), cursor `pos`, number of valid bytes `n`, and
the sticky error field `err`. -/
structure FastReader where
  src : List ReadResp
  buf : List Nat
  pos : Nat
  n : Nat
  err : Option Err
deriving DecidableEq, Repr

/-- Overwrite the front of `buf` with `data`, keeping the total length
(Go: the source writes into buf[0:len(data)]). -/
def overwriteFront (buf data : List Nat) : List Nat :=
  data.take buf.length ++ buf.drop (min data.length buf.length)

/-- fastio.NewReader: 64 KB buffer over the given source. -/
def NewReader (src : List ReadResp) : FastReader :=
  { src := src, buf := List.replicate 65536 0, pos := 0, n := 0, err := none }

/-- FastReader.fill: no-op if the sticky error is set; otherwise one Read
call on the source: the reported count is clamped at zero, `pos` resets
to 0 and a reported error becomes sticky. -/
def FastReader.fill (fr : FastReader) : FastReader :=
  if fr.err.isSome then fr
  else
    match fr.src with
    | [] => { fr with n := 0, pos := 0 }
    | r :: rs =>
        { fr with src := rs, buf := overwriteFront fr.buf r.data,
                  n := r.n.toNat, pos := 0, err := r.err }

/-- FastReader.ensureData: refill when the buffer is exhausted; convert a
zero-byte refill without error into io.EOF.  A sticky non-EOF error, or a
sticky EOF with no buffered byte left, is returned immediately. -/
def FastReader.ensureData (fr : FastReader) : Option Err × FastReader :=
  if fr.err ≠ none ∧ ¬(fr.err = some Err.eof ∧ fr.pos < fr.n) then (fr.err, fr)
  else if fr.n ≤ fr.pos then
    let f1 := fr.fill
    if f1.n = 0 then
      let f2 := if f1.err = none then { f1 with err := some Err.eof } else f1
      (f2.err, f2)
    else (none, f1)
  else (none, fr)

/-- FastReader.ReadByte: consume one byte; reads ahead when that empties
the buffer, so that the last byte of the input is returned together with
io.EOF. -/
def FastReader.ReadByte (fr : FastReader) : (Nat × Option Err) × FastReader :=
  match fr.ensureData with
  | (some e, f1) => ((0, some e), f1)
  | (none, f1) =>
    let b := f1.buf.getD f1.pos 0
    let f2 := { f1 with pos := f1.pos + 1 }
    if f2.n ≤ f2.pos then
      let f3 := if f2.err = none then f2.fill else f2
      if f3.n = 0 then
        let f4 := if f3.err = none then { f3 with err := some Err.eof } else f3
        ((b, f4.err), f4)
      else if f3.n ≤ f3.pos ∧ f3.err ≠ none then ((b, f3.err), f3)
      else ((b, none), f3)
    else if f2.n ≤ f2.pos ∧ f2.err ≠ none then ((b, f2.err), f2)
    else ((b, none), f2)

/-- FastReader.PeekByte: like ReadByte but does not advance the cursor. -/
def FastReader.PeekByte (fr : FastReader) : (Nat × Option Err) × FastReader :=
  match fr.ensureData with
  | (some e, f1) => ((0, some e), f1)
  | (none, f1) => ((f1.buf.getD f1.pos 0, none), f1)

/-- Whitespace set of fastio: space, line feed, carriage return, tab. -/
def isWS (b : Nat) : Bool := b == 32 || b == 10 || b == 13 || b == 9

/-- Total size of a source script (used as loop fuel). -/
def srcSize (src : List ReadResp) : Nat :=
  src.foldr (fun r acc => r.data.length + 1 + acc) 0

/-- Fuel supplied to the reader loops: one unit per available byte plus
slack; always enough for the loops to reach their own exit conditions in
the situations covered by the theorems below. -/
def FastReader.readFuel (fr : FastReader) : Nat :=
  (fr.n - fr.pos) + srcSize fr.src + 2

/-- Loop body of FastReader.SkipSpaces. -/
def SkipSpacesF : Nat → FastReader → Option Err × FastReader
  | 0, fr => (some Err.noFuel, fr)
  | fuel + 1, fr =>
    match fr.PeekByte with
    | ((_, some e), f1) => if e = Err.eof then (none, f1) else (some e, f1)
    | ((b, none), f1) =>
      if isWS b then SkipSpacesF fuel (f1.ReadByte).2
      else (none, f1)

/-- FastReader.SkipSpaces: skip the maximal run of whitespace; reaching
end of input while skipping is a success. -/
def FastReader.SkipSpaces (fr : FastReader) : Option Err × FastReader :=
  SkipSpacesF fr.readFuel fr

/-- Loop body of FastReader.NextWord: accumulate non-whitespace bytes. -/
def NextWordLoopF : Nat → FastReader → List Nat → (List Nat × Option Err) × FastReader
  | 0, fr, acc => ((acc, some Err.noFuel), fr)
  | fuel + 1, fr, acc =>
    match fr.PeekByte with
    | ((_, some e), f1) =>
      if e = Err.eof then
        if acc = [] then (([], some Err.eof), f1) else ((acc, none), f1)
      else (([], some e), f1)
    | ((b, none), f1) =>
      if isWS b then
        if acc = [] then (([], some Err.eof), f1) else ((acc, none), f1)
      else NextWordLoopF fuel (f1.ReadByte).2 (acc ++ [b])

/-- FastReader.NextWord: skip whitespace, then read a maximal run of
non-whitespace bytes; io.EOF when no such byte exists. -/
def FastReader.NextWord (fr : FastReader) : (List Nat × Option Err) × FastReader :=
  match fr.SkipSpaces with
  | (some e, f1) => if e = Err.eof then (([], some Err.eof), f1) else (([], some e), f1)
  | (none, f1) => NextWordLoopF f1.readFuel f1 []

/-- Two's-complement wrap of Go 64-bit int arithmetic. -/
def wrap64 (x : Int) : Int := (x + 2 ^ 63) % 2 ^ 64 - 2 ^ 63

/-- One step of NextInt's accumulator: val = val*10 + int(b - '0'), with
each Go int operation wrapping at 64 bits. -/
def digStep (v : Int) (b : Nat) : Int := wrap64 (wrap64 (v * 10) + ((b : Int) - 48))

/-- Digit-accumulation loop of FastReader.NextInt; returns the value so
far and the number of digits read. -/
def NextIntLoopF : Nat → FastReader → Int → Nat → ((Int × Nat) × Option Err) × FastReader
  | 0, fr, v, d => (((v, d), some Err.noFuel), fr)
  | fuel + 1, fr, v, d =>
    match fr.PeekByte with
    | ((_, some e), f1) =>
      if e = Err.eof then (((v, d), none), f1) else (((0, d), some e), f1)
    | ((b, none), f1) =>
      if b < 48 ∨ 57 < b then (((v, d), none), f1)
      else NextIntLoopF fuel (f1.ReadByte).2 (digStep v b) (d + 1)

/-- FastReader.NextInt: skip whitespace, an optional sign, then a maximal
digit run; zero digits consumed is a value-level error that is not stored
in the sticky error field. -/
def FastReader.NextInt (fr : FastReader) : (Int × Option Err) × FastReader :=
  match fr.SkipSpaces with
  | (some e, f1) => ((0, some e), f1)
  | (none, f1) =>
    match f1.PeekByte with
    | ((_, some e), f2) => ((0, some e), f2)
    | ((b, none), f2) =>
      let sign : Int := if b = 45 then -1 else 1
      let f3 := if b = 45 ∨ b = 43 then (f2.ReadByte).2 else f2
      match NextIntLoopF f3.readFuel f3 0 0 with
      | (((v, d), none), f4) =>
        if d = 0 then ((0, some (Err.msg "fastio: NextInt: no digits found")), f4)
        else ((wrap64 (sign * v), none), f4)
      | ((_, some e), f4) => ((0, some e), f4)

/-- Strip one trailing carriage return (NextLine's CRLF normalization). -/
def stripCR (l : List Nat) : List Nat :=
  if l ≠ [] ∧ l.getLast? = some 13 then l.dropLast else l

/-- Loop body of FastReader.NextLine.  Note that when ReadByte reports an
error the byte it returned alongside the error is discarded, exactly as
in the source. -/
def NextLineLoopF : Nat → FastReader → List Nat → (List Nat × Option Err) × FastReader
  | 0, fr, acc => ((acc, some Err.noFuel), fr)
  | fuel + 1, fr, acc =>
    match fr.ReadByte with
    | ((_, some e), f1) =>
      if e = Err.eof then
        if acc = [] then (([], some Err.eof), f1) else ((stripCR acc, none), f1)
      else (([], some e), f1)
    | ((b, none), f1) =>
      if b = 10 then ((stripCR acc, none), f1)
      else NextLineLoopF fuel f1 (acc ++ [b])

/-- FastReader.NextLine: read up to and excluding a line feed; a trailing
carriage return of the content is stripped. -/
def FastReader.NextLine (fr : FastReader) : (List Nat × Option Err) × FastReader :=
  NextLineLoopF fr.readFuel fr []

/-! Writer side. -/

/-- One response of a byte sink: accept everything, accept at most `k`
bytes, or fail with an error accepting nothing. -/
inductive WriteResp where
  | ok
  | acceptN (k : Nat)
  | fail (e : Err)
deriving DecidableEq, Repr

/-- A byte sink: remaining response script (empty script = accept-all),
the bytes accepted so far, and the log of Write calls made on it. -/
structure Sink where
  script : List WriteResp
  received : List Nat
  calls : List (List Nat)
deriving DecidableEq, Repr

/-- One Write call on the sink: returns the accepted count and error,
logs the call, appends the accepted bytes. -/
def Sink.write (s : Sink) (p : List Nat) : (Nat × Option Err) × Sink :=
  let resp := match s.script with
    | [] => WriteResp.ok
    | r :: _ => r
  let rest := match s.script with
    | [] => ([] : List WriteResp)
    | _ :: rs => rs
  match resp with
  | WriteResp.ok =>
      ((p.length, none),
       { script := rest, received := s.received ++ p, calls := s.calls ++ [p] })
  | WriteResp.acceptN k =>
      ((min k p.length, none),
       { script := rest, received := s.received ++ p.take (min k p.length),
         calls := s.calls ++ [p] })
  | WriteResp.fail e =>
      ((0, some e), { script := rest, received := s.received, calls := s.calls ++ [p] })

/-- State of fastio.FastWriter: sink, backing buffer (fixed length =
capacity), cursor `pos`, sticky error, auto-flush configuration. -/
structure FastWriter where
  sink : Sink
  buf : List Nat
  pos : Nat
  err : Option Err
  autoFlush : Bool
  limit : Nat
deriving DecidableEq, Repr

/-- fastio.NewWriter: 64 KB buffer, auto-flush disabled. -/
def NewWriter (sink : Sink) : FastWriter :=
  { sink := sink, buf := List.replicate 65536 0, pos := 0, err := none,
    autoFlush := false, limit := 32768 }

/-- FastWriter.Flush: sticky error returned immediately; empty buffer is
a no-op with no sink call; otherwise one sink call with all buffered
bytes, a short write or failure becoming sticky, and the buffer reset
exactly on full success. -/
def FastWriter.Flush (fw : FastWriter) : Option Err × FastWriter :=
  if fw.err ≠ none then (fw.err, fw)
  else if fw.pos = 0 then (none, fw)
  else
    match fw.sink.write (fw.buf.take fw.pos) with
    | ((_, some e), sk) => (some e, { fw with sink := sk, err := some (Err.wrap e) })
    | ((n, none), sk) =>
      if n < fw.pos then
        (some (Err.wrap Err.shortWrite),
         { fw with sink := sk, err := some (Err.wrap Err.shortWrite) })
      else (none, { fw with sink := sk, pos := 0 })

/-- FastWriter.checkWriter: probe the sink with a zero-length write; a
failure becomes the sticky error. -/
def FastWriter.checkWriter (fw : FastWriter) : Option Err × FastWriter :=
  if fw.err ≠ none then (fw.err, fw)
  else
    match fw.sink.write [] with
    | ((_, some e), sk) =>
        (some (Err.wrap e), { fw with sink := sk, err := some (Err.wrap e) })
    | ((_, none), sk) => (none, { fw with sink := sk })

/-- FastWriter.ensureSpace n: probe the sink when the buffer is empty;
when n exceeds the capacity, flush and issue one more zero-length write
(the source writes fw.buf[:0], an empty slice); otherwise flush when the
free space is insufficient. -/
def FastWriter.ensureSpace (fw : FastWriter) (n : Nat) : Option Err × FastWriter :=
  if fw.err ≠ none then (fw.err, fw)
  else
    match (if fw.pos = 0 then fw.checkWriter else (none, fw)) with
    | (some e, f1) => (some e, f1)
    | (none, f1) =>
      if f1.buf.length < n then
        match f1.Flush with
        | (some e, f2) => (some e, f2)
        | (none, f2) =>
          match f2.sink.write [] with
          | ((_, some e), sk) =>
              (some e, { f2 with sink := sk, err := some (Err.wrap e) })
          | ((_, none), sk) => (none, { f2 with sink := sk })
      else if f1.buf.length < f1.pos + n then f1.Flush
      else (none, f1)

/-- Copy `seg` into `buf` starting at `pos` (Go: copy(buf[pos:], seg)
where seg already fits). -/
def listCopy (buf : List Nat) (pos : Nat) (seg : List Nat) : List Nat :=
  buf.take pos ++ seg ++ buf.drop (pos + seg.length)

/-- Loop body of FastWriter.Write: ensure space for the remainder, copy
what fits, optionally auto-flush, repeat. -/
def writeLoopF : Nat → FastWriter → List Nat → Nat → (Nat × Option Err) × FastWriter
  | 0, fw, _, total => ((total, some Err.noFuel), fw)
  | fuel + 1, fw, p, total =>
    if p = [] then ((total, none), fw)
    else
      match fw.ensureSpace p.length with
      | (some e, f1) => ((total, some e), f1)
      | (none, f1) =>
        let k := min (f1.buf.length - f1.pos) p.length
        let f2 := { f1 with buf := listCopy f1.buf f1.pos (p.take k), pos := f1.pos + k }
        if f2.autoFlush ∧ f2.limit ≤ f2.pos then
          match f2.Flush with
          | (some e, f3) => ((total + k, some e), f3)
          | (none, f3) => writeLoopF fuel f3 (p.drop k) (total + k)
        else writeLoopF fuel f2 (p.drop k) (total + k)

/-- FastWriter.Write: sticky error short-circuits, else the copy loop. -/
def FastWriter.Write (fw : FastWriter) (p : List Nat) : (Nat × Option Err) × FastWriter :=
  if fw.err ≠ none then ((0, fw.err), fw)
  else writeLoopF (p.length + 1) fw p 0

/-- FastWriter.WriteByte: ensure one free slot, store the byte, then
auto-flush when the threshold is reached. -/
def FastWriter.WriteByte (fw : FastWriter) (b : Nat) : Option Err × FastWriter :=
  match fw.ensureSpace 1 with
  | (some e, f1) => (some e, f1)
  | (none, f1) =>
    let f2 := { f1 with buf := listCopy f1.buf f1.pos [b], pos := f1.pos + 1 }
    if f2.autoFlush ∧ f2.limit ≤ f2.pos then f2.Flush
    else (none, f2)

/-- FastWriter.WriteBytes: Write, discarding the count. -/
def FastWriter.WriteBytes (fw : FastWriter) (b : List Nat) : Option Err × FastWriter :=
  ((fw.Write b).1.2, (fw.Write b).2)

/-- Decimal digits (ASCII) of a natural number, most significant first;
fuel 20 covers every value below 10^20, in particular the whole uint64
range used by strconv.AppendInt. -/
def natDecAux : Nat → Nat → List Nat → List Nat
  | 0, _, acc => acc
  | fuel + 1, n, acc =>
    if n = 0 then acc else natDecAux fuel (n / 10) ((n % 10 + 48) :: acc)

/-- Decimal ASCII text of a natural number. -/
def natDec (n : Nat) : List Nat := if n = 0 then [48] else natDecAux 20 n []

/-- Decimal ASCII text of a Go int64 value as produced by
strconv.AppendInt: a leading '-' for negative values, no leading '+',
no leading zeros. -/
def intDec (v : Int) : List Nat := if v < 0 then 45 :: natDec (-v).toNat else natDec v.toNat

/-- FastWriter.WriteInt: format through the scratch buffer (modelled by
the formatted byte list) and append with WriteBytes. -/
def FastWriter.WriteInt (fw : FastWriter) (v : Int) : Option Err × FastWriter :=
  fw.WriteBytes (intDec v)

/-- FastWriter.WriteString over a byte list, via WriteBytes. -/
def FastWriter.WriteStr (fw : FastWriter) (s : List Nat) : Option Err × FastWriter :=
  fw.WriteBytes s

/-- FastWriter.WriteLine: the string then a line feed. -/
def FastWriter.WriteLine (fw : FastWriter) (s : List Nat) : Option Err × FastWriter :=
  match fw.WriteStr s with
  | (some e, f1) => (some e, f1)
  | (none, f1) => f1.WriteByte 10

/-! Abstractions used by the theorems. -/

/-- All bytes a source script will still deliver. -/
def srcBytes (src : List ReadResp) : List Nat := (src.map ReadResp.data).flatten

/-- The unread bytes currently buffered: buffer[pos:validLength]. -/
def unread (fr : FastReader) : List Nat := (fr.buf.take fr.n).drop fr.pos

/-- The byte stream still ahead of the reader: unread buffered bytes
followed by everything the source will still deliver. -/
def FastReader.stream (fr : FastReader) : List Nat := unread fr ++ srcBytes fr.src

/-- A conforming source response (strings.Reader style): no error, at
least one byte, the reported count equal to the data length and at most
the buffer capacity. -/
def GoodResp (cap : Nat) (r : ReadResp) : Prop :=
  r.err = none ∧ r.data ≠ [] ∧ r.n = (r.data.length : Int) ∧ r.data.length ≤ cap

/-- Every response of the script is conforming. -/
def GoodSrc (cap : Nat) (src : List ReadResp) : Prop := ∀ r ∈ src, GoodResp cap r

/-- Reader states reachable over a conforming source: the buffer indices
are coherent and the sticky error is either unset or the end-of-input
condition reached with everything consumed. -/
def Good (fr : FastReader) : Prop :=
  fr.pos ≤ fr.n ∧ fr.n ≤ fr.buf.length ∧ GoodSrc fr.buf.length fr.src ∧
  (fr.err = none ∨ (fr.err = some Err.eof ∧ fr.n ≤ fr.pos ∧ fr.src = []))

instance (cap : Nat) (r : ReadResp) : Decidable (GoodResp cap r) := by
  unfold GoodResp; infer_instance

instance (cap : Nat) (src : List ReadResp) : Decidable (GoodSrc cap src) := by
  unfold GoodSrc; infer_instance

instance (fr : FastReader) : Decidable (Good fr) := by
  unfold Good; infer_instance

/-- Bytes handed to the writer so far and not yet lost: what the sink has
accepted followed by what is still buffered. -/
def wOut (fw : FastWriter) : List Nat := fw.sink.received ++ fw.buf.take fw.pos

/-- Writer states over an accept-all sink with no sticky error. -/
def WGood (fw : FastWriter) : Prop :=
  fw.err = none ∧ fw.sink.script = [] ∧ fw.pos ≤ fw.buf.length ∧ 1 ≤ fw.buf.length

instance (fw : FastWriter) : Decidable (WGood fw) := by
  unfold WGood; infer_instance

/-- The byte text produced by writing each value with WriteInt followed
by a single space with WriteByte. -/
def tokens (vs : List Int) : List Nat := (vs.map (fun v => intDec v ++ [32])).flatten

/-- Write each value with WriteInt followed by a space with WriteByte. -/
def writeIntSeq : List Int → FastWriter → FastWriter
  | [], fw => fw
  | v :: vs, fw => writeIntSeq vs ((((fw.WriteInt v).2).WriteByte 32).2)

/-- Values returned by k successive NextInt calls. -/
def runNextInts : Nat → FastReader → List Int × FastReader
  | 0, fr => ([], fr)
  | k + 1, fr =>
    let r := fr.NextInt
    let rest := runNextInts k r.2
    (r.1.1 :: rest.1, rest.2)

/-- A fresh reader over the byte string s, as produced by NewReader over
strings.NewReader(s) (single full chunk, then end of input), with the
buffer sized to the input. -/
def mkRd (s : List Nat) : FastReader :=
  { src := [{ n := (s.length : Int), data := s, err := none }],
    buf := List.replicate (s.length + 1) 0, pos := 0, n := 0, err := none }

/-- Every byte of the list is whitespace. -/
def allWS (l : List Nat) : Prop := ∀ b ∈ l, isWS b = true

instance (l : List Nat) : Decidable (allWS l) := by
  unfold allWS; infer_instance

/-! Basic list facts. -/

theorem overwriteFront_length (buf data : List Nat) :
    (overwriteFront buf data).length = buf.length := by
  unfold overwriteFront
  simp only [List.length_append, List.length_take, List.length_drop]
  omega

theorem overwriteFront_take (buf data : List Nat) (h : data.length ≤ buf.length) :
    (overwriteFront buf data).take data.length = data := by
  unfold overwriteFront
  rw [List.take_append_of_le_length (by simp only [List.length_take]; omega),
      List.take_take]
  rw [Nat.min_eq_left h, List.take_length]

theorem srcBytes_nil : srcBytes [] = [] := rfl

theorem srcBytes_cons (r : ReadResp) (rs : List ReadResp) :
    srcBytes (r :: rs) = r.data ++ srcBytes rs := by
  simp [srcBytes]

theorem srcSize_cons (r : ReadResp) (rs : List ReadResp) :
    srcSize (r :: rs) = r.data.length + 1 + srcSize rs := rfl

theorem srcBytes_length_le (src : List ReadResp) :
    (srcBytes src).length ≤ srcSize src := by
  induction src with
  | nil => simp [srcBytes, srcSize]
  | cons r rs ih =>
      rw [srcBytes_cons, srcSize_cons, List.length_append]
      omega

theorem srcBytes_eq_nil (src : List ReadResp) (cap : Nat) (hg : GoodSrc cap src)
    (h : srcBytes src = []) : src = [] := by
  cases src with
  | nil => rfl
  | cons r rs =>
      rw [srcBytes_cons] at h
      have hd : r.data = [] := by
        cases hcd : r.data with
        | nil => rfl
        | cons x xs => rw [hcd] at h; simp at h
      exact absurd hd (hg r (by simp)).2.1

theorem unread_length (fr : FastReader) (h : fr.n ≤ fr.buf.length) :
    (unread fr).length = fr.n - fr.pos := by
  unfold unread
  simp only [List.length_drop, List.length_take]
  omega

theorem stream_length_le (fr : FastReader) (h : fr.n ≤ fr.buf.length) :
    fr.stream.length ≤ (fr.n - fr.pos) + srcSize fr.src := by
  unfold FastReader.stream
  rw [List.length_append, unread_length fr h]
  have := srcBytes_length_le fr.src
  omega

theorem readFuel_ge (fr : FastReader) (h : fr.n ≤ fr.buf.length) :
    fr.stream.length + 2 ≤ fr.readFuel := by
  unfold FastReader.readFuel
  have := stream_length_le fr h
  omega

theorem unread_eq_cons (fr : FastReader) (h1 : fr.pos < fr.n) (h2 : fr.n ≤ fr.buf.length) :
    unread fr = fr.buf.getD fr.pos 0 :: (fr.buf.take fr.n).drop (fr.pos + 1) := by
  unfold unread
  have hlen : fr.pos < (fr.buf.take fr.n).length := by
    simp only [List.length_take]; omega
  rw [List.drop_eq_getElem_cons hlen]
  congr 1
  rw [List.getElem_take]
  exact (List.getD_eq_getElem fr.buf 0 (by omega)).symm

theorem unread_eq_nil (fr : FastReader) (h1 : fr.n ≤ fr.pos) (h2 : fr.n ≤ fr.buf.length) :
    unread fr = [] := by
  apply List.eq_nil_of_length_eq_zero
  rw [unread_length fr h2]
  omega

/-! Characterization of fill and ensureData over conforming sources. -/

theorem fill_none_nil (fr : FastReader) (he : fr.err = none) (hs : fr.src = []) :
    fr.fill = { fr with n := 0, pos := 0 } := by
  simp [FastReader.fill, he, hs]

theorem fill_none_cons (fr : FastReader) (he : fr.err = none) (r : ReadResp)
    (rs : List ReadResp) (hs : fr.src = r :: rs) :
    fr.fill = { fr with src := rs, buf := overwriteFront fr.buf r.data,
                        n := r.n.toNat, pos := 0, err := r.err } := by
  simp [FastReader.fill, he, hs]

theorem ensureData_nil (fr : FastReader) (h : Good fr) (hs : fr.stream = []) :
    ∃ g, fr.ensureData = (some Err.eof, g) ∧ Good g ∧ g.stream = [] ∧
      g.err = some Err.eof ∧ g.n ≤ g.pos ∧ g.src = [] ∧ g.buf.length = fr.buf.length := by
  obtain ⟨hpn, hnl, hsrc, herr⟩ := h
  unfold FastReader.stream at hs
  have hun : unread fr = [] := by
    cases hx : unread fr with
    | nil => rfl
    | cons a l => rw [hx] at hs; simp at hs
  have hsb : srcBytes fr.src = [] := by
    rw [hun] at hs; simpa using hs
  have hsrcnil : fr.src = [] := srcBytes_eq_nil fr.src fr.buf.length hsrc hsb
  have hnp : fr.n ≤ fr.pos := by
    by_contra hc
    push_neg at hc
    have := unread_length fr hnl
    rw [hun] at this
    simp at this
    omega
  rcases herr with he | ⟨he, _, _⟩
  · -- no sticky error yet: refill yields zero bytes, EOF is recorded
    refine ⟨{ fr with n := 0, pos := 0, err := some Err.eof }, ?_, ?_, ?_, rfl, le_refl _, hsrcnil, rfl⟩
    · unfold FastReader.ensureData
      rw [fill_none_nil fr he hsrcnil]
      simp [he, hnp]
    · exact ⟨le_refl _, Nat.zero_le _, hsrc, Or.inr ⟨rfl, le_refl _, hsrcnil⟩⟩
    · simp [FastReader.stream, unread, hsrcnil, srcBytes_nil]
  · -- sticky EOF with nothing buffered: returned unchanged
    refine ⟨fr, ?_, ⟨hpn, hnl, hsrc, Or.inr ⟨he, hnp, hsrcnil⟩⟩, ?_, he, hnp, hsrcnil, rfl⟩
    · unfold FastReader.ensureData
      rw [he]
      have hnp2 : ¬ fr.pos < fr.n := by omega
      simp [hnp2]
    · unfold FastReader.stream
      rw [hun, hsb]
      rfl

theorem ensureData_cons (fr : FastReader) (h : Good fr) (b : Nat) (rest : List Nat)
    (hs : fr.stream = b :: rest) :
    ∃ g, fr.ensureData = (none, g) ∧ Good g ∧ g.err = none ∧ g.pos < g.n ∧
      g.buf.getD g.pos 0 = b ∧
      (g.buf.take g.n).drop (g.pos + 1) ++ srcBytes g.src = rest ∧
      g.stream = b :: rest ∧ g.buf.length = fr.buf.length := by
  obtain ⟨hpn, hnl, hsrc, herr⟩ := h
  have herr0 : fr.err = none := by
    rcases herr with he | ⟨he, hx, hsn⟩
    · exact he
    · exfalso
      unfold FastReader.stream at hs
      rw [unread_eq_nil fr hx hnl, hsn, srcBytes_nil] at hs
      simp at hs
  by_cases hp : fr.pos < fr.n
  · -- a byte is already buffered
    have hun := unread_eq_cons fr hp hnl
    have hsb : fr.buf.getD fr.pos 0 = b ∧
        (fr.buf.take fr.n).drop (fr.pos + 1) ++ srcBytes fr.src = rest := by
      unfold FastReader.stream at hs
      rw [hun] at hs
      simp only [List.cons_append] at hs
      exact ⟨(List.cons.injEq _ _ _ _ ▸ hs).1, (List.cons.injEq _ _ _ _ ▸ hs).2⟩
    refine ⟨fr, ?_, ⟨hpn, hnl, hsrc, Or.inl herr0⟩, herr0, hp, hsb.1, hsb.2, hs, rfl⟩
    unfold FastReader.ensureData
    rw [herr0]
    simp
    omega
  · -- buffer exhausted: the refill produces the head chunk
    push_neg at hp
    have hun : unread fr = [] := unread_eq_nil fr hp hnl
    have hsb : srcBytes fr.src = b :: rest := by
      unfold FastReader.stream at hs
      rw [hun] at hs
      simpa using hs
    cases hsc : fr.src with
    | nil => rw [hsc, srcBytes_nil] at hsb; simp at hsb
    | cons r rs =>
        obtain ⟨hre, hrd, hrn, hrc⟩ := hsrc r (by rw [hsc]; simp)
        have hfill := fill_none_cons fr herr0 r rs hsc
        have htn : r.n.toNat = r.data.length := by rw [hrn]; simp
        have hdn : r.data.length ≠ 0 := by
          intro hx
          exact hrd (List.eq_nil_of_length_eq_zero hx)
        set g : FastReader :=
          { fr with src := rs, buf := overwriteFront fr.buf r.data,
                    n := r.n.toNat, pos := 0, err := r.err } with hg
        have hgbuf : g.buf.length = fr.buf.length := overwriteFront_length _ _
        have hgun : unread g = r.data := by
          unfold unread
          rw [hg]
          simp only [List.drop_zero, htn]
          exact overwriteFront_take fr.buf r.data hrc
        cases hd : r.data with
        | nil => exact absurd hd hrd
        | cons x dt =>
            have hxb : x = b ∧ dt ++ srcBytes rs = rest := by
              rw [hsc, srcBytes_cons, hd] at hsb
              simp only [List.cons_append] at hsb
              exact ⟨(List.cons.injEq _ _ _ _ ▸ hsb).1, (List.cons.injEq _ _ _ _ ▸ hsb).2⟩
            have hgn : 0 < g.n := by
              rw [hg]
              simp only [htn]
              omega
            have hgnl : g.n ≤ g.buf.length := by
              rw [hgbuf, hg]
              simp only [htn]
              exact hrc
            have hgErr : g.err = none := by rw [hg]; exact hre
            have hGoodg : Good g := by
              refine ⟨Nat.le_of_lt hgn, hgnl, ?_, Or.inl hgErr⟩
              intro q hq
              have := hsrc q (by rw [hsc]; simp [hq])
              rwa [hgbuf]
            have hgun2 := unread_eq_cons g hgn hgnl
            have hcons : g.buf.getD g.pos 0 :: (g.buf.take g.n).drop (g.pos + 1) = x :: dt := by
              rw [← hgun2, hgun, hd]
            have hheads : g.buf.getD g.pos 0 = b ∧
                (g.buf.take g.n).drop (g.pos + 1) = dt := by
              injection hcons with h1 h2
              exact ⟨h1.trans hxb.1, h2⟩
            have hgsrc : g.src = rs := by rw [hg]
            have hrest : (g.buf.take g.n).drop (g.pos + 1) ++ srcBytes g.src = rest := by
              rw [hheads.2, hgsrc]
              exact hxb.2
            have hgstream : g.stream = b :: rest := by
              unfold FastReader.stream
              rw [hgun, hgsrc, hd, hxb.1]
              simp only [List.cons_append]
              rw [hxb.2]
            refine ⟨g, ?_, hGoodg, hgErr, hgn, hheads.1, hrest, hgstream, hgbuf⟩
            have hne : ¬ (fr.fill).n = 0 := by rw [hfill]; omega
            have hrn0 : ¬ r.n ≤ 0 := by
              rw [hrn]
              simp only [not_le]
              exact_mod_cast Nat.pos_of_ne_zero hdn
            simp [FastReader.ensureData, herr0, hp, hfill, hne, hrn0]

/-! Characterization of PeekByte and ReadByte over conforming sources. -/

theorem PeekByte_nil (fr : FastReader) (h : Good fr) (hs : fr.stream = []) :
    ∃ g, fr.PeekByte = ((0, some Err.eof), g) ∧ Good g ∧ g.stream = [] ∧
      g.err = some Err.eof ∧ g.buf.length = fr.buf.length := by
  obtain ⟨g, hED, hG, hst, he, _, _, hbl⟩ := ensureData_nil fr h hs
  refine ⟨g, ?_, hG, hst, he, hbl⟩
  simp [FastReader.PeekByte, hED]

theorem PeekByte_cons (fr : FastReader) (h : Good fr) (b : Nat) (rest : List Nat)
    (hs : fr.stream = b :: rest) :
    ∃ g, fr.PeekByte = ((b, none), g) ∧ Good g ∧ g.err = none ∧
      g.stream = b :: rest ∧ g.buf.length = fr.buf.length := by
  obtain ⟨g, hED, hG, he, hlt, hb, hrest, hst, hbl⟩ := ensureData_cons fr h b rest hs
  refine ⟨g, ?_, hG, he, hst, hbl⟩
  rw [List.getD_eq_getElem?_getD] at hb
  simp [FastReader.PeekByte, hED, hb]

theorem ReadByte_nil (fr : FastReader) (h : Good fr) (hs : fr.stream = []) :
    ∃ g, fr.ReadByte = ((0, some Err.eof), g) ∧ Good g ∧ g.stream = [] ∧
      g.err = some Err.eof ∧ g.buf.length = fr.buf.length := by
  obtain ⟨g, hED, hG, hst, he, _, _, hbl⟩ := ensureData_nil fr h hs
  refine ⟨g, ?_, hG, hst, he, hbl⟩
  simp [FastReader.ReadByte, hED]

theorem ReadByte_cons (fr : FastReader) (h : Good fr) (b : Nat) (rest : List Nat)
    (hs : fr.stream = b :: rest) :
    ∃ g, fr.ReadByte = ((b, if rest = [] then some Err.eof else none), g) ∧ Good g ∧
      g.stream = rest ∧ g.err = (if rest = [] then some Err.eof else none) ∧
      g.buf.length = fr.buf.length := by
  obtain ⟨g, hED, hG, he, hlt, hb, hrest, hst, hbl⟩ := ensureData_cons fr h b rest hs
  obtain ⟨hgpn, hgnl, hgsrc, _⟩ := hG
  by_cases hc : g.n ≤ g.pos + 1
  · -- the consumed byte empties the buffer: read ahead
    have hdrop : (g.buf.take g.n).drop (g.pos + 1) = [] := by
      apply List.drop_eq_nil_of_le
      simp only [List.length_take]
      omega
    have hrest2 : srcBytes g.src = rest := by
      rw [hdrop] at hrest
      simpa using hrest
    cases hgc : g.src with
    | nil =>
        have hrnil : rest = [] := by rw [← hrest2, hgc, srcBytes_nil]
        have hfill2 : FastReader.fill { g with pos := g.pos + 1 } =
            { g with pos := 0, n := 0 } := by
          rw [fill_none_nil _ (by simp [he]) (by simp [hgc])]
        refine ⟨{ g with pos := 0, n := 0, err := some Err.eof }, ?_, ?_, ?_, ?_, ?_⟩
        · simp only [FastReader.ReadByte, hED, hb, hfill2]
          simp [hc, he, hfill2, hrnil]
        · exact ⟨le_refl _, Nat.zero_le _, fun r hr => by rw [hgc] at hr; simp at hr,
            Or.inr ⟨rfl, le_refl _, by simp [hgc]⟩⟩
        · simp [FastReader.stream, unread, hgc, srcBytes_nil, hrnil]
        · simp [hrnil]
        · simp [hbl]
    | cons r rs =>
        obtain ⟨hre, hrd, hrn, hrc⟩ := hgsrc r (by rw [hgc]; simp)
        have htn : r.n.toNat = r.data.length := by rw [hrn]; simp
        have hdn : r.data.length ≠ 0 := fun hx => hrd (List.eq_nil_of_length_eq_zero hx)
        have hrne : rest ≠ [] := by
          rw [← hrest2, hgc, srcBytes_cons]
          cases hcd : r.data with
          | nil => exact absurd hcd hrd
          | cons x xs => simp
        have hfill2 : FastReader.fill { g with pos := g.pos + 1 } =
            { g with src := rs, buf := overwriteFront g.buf r.data,
                     n := r.n.toNat, pos := 0, err := r.err } := by
          rw [fill_none_cons _ (by simp [he]) r rs (by simp [hgc])]
        set g2 : FastReader :=
          { g with src := rs, buf := overwriteFront g.buf r.data,
                   n := r.n.toNat, pos := 0, err := r.err } with hg2
        have hg2n : 0 < g2.n := by rw [hg2]; simp only [htn]; omega
        have hg2bl : g2.buf.length = g.buf.length := overwriteFront_length _ _
        have hg2nl : g2.n ≤ g2.buf.length := by
          rw [hg2bl, hg2]; simp only [htn]; exact hrc
        have hg2err : g2.err = none := by rw [hg2]; exact hre
        have hg2un : unread g2 = r.data := by
          unfold unread
          rw [hg2]
          simp only [List.drop_zero, htn]
          exact overwriteFront_take g.buf r.data hrc
        have hg2stream : g2.stream = rest := by
          unfold FastReader.stream
          rw [hg2un, ← hrest2, hgc, srcBytes_cons, hg2]
        refine ⟨g2, ?_, ?_, hg2stream, by simp [hrne, hg2err, hre], by rw [hg2bl, hbl]⟩
        · simp only [FastReader.ReadByte, hED, hb, hfill2]
          have hg2n0 : ¬ g2.n = 0 := by omega
          have hnope : ¬ (g2.n ≤ g2.pos ∧ g2.err ≠ none) := by
            intro hx
            exact hx.2 hg2err
          simp [hc, he, ← hg2, hg2n0, hnope, hrne]
        · exact ⟨Nat.le_of_lt hg2n, hg2nl, fun q hq => by
            rw [hg2bl, hbl]
            have := hgsrc q (by rw [hgc]; simp [show q ∈ rs from hq])
            rwa [hbl] at this, Or.inl hg2err⟩
  · -- bytes remain buffered after the consume
    push_neg at hc
    set f2 : FastReader := { g with pos := g.pos + 1 } with hf2
    have hf2n : f2.pos < f2.n := by rw [hf2]; simpa using hc
    have hf2nl : f2.n ≤ f2.buf.length := by rw [hf2]; simpa using hgnl
    have hf2err : f2.err = none := by rw [hf2]; exact he
    have hf2stream : f2.stream = rest := by
      unfold FastReader.stream
      rw [← hrest]
      rfl
    have hrne : rest ≠ [] := by
      rw [← hf2stream]
      unfold FastReader.stream
      have h1 := unread_eq_cons f2 hf2n hf2nl
      rw [h1]
      simp
    refine ⟨f2, ?_, ?_, hf2stream, by simp [hrne, hf2err, he], by rw [hf2]; simpa using hbl⟩
    · simp only [FastReader.ReadByte, hED]
      have hcc : ¬ (g.n ≤ g.pos + 1) := by omega
      rw [List.getD_eq_getElem?_getD] at hb
      simp [hcc, hb, hf2, he, hrne]
    · exact ⟨Nat.le_of_lt hf2n, hf2nl, fun q hq => by
        have := hgsrc q (by rw [hf2] at hq; simpa using hq)
        rw [hf2]; simpa using this, Or.inl hf2err⟩

/-! Loop lemmas over conforming sources. -/

theorem SkipSpacesF_good (s : List Nat) : ∀ (fr : FastReader) (fuel : Nat), Good fr →
    fr.stream = s → s.length + 1 ≤ fuel →
    (SkipSpacesF fuel fr).1 = none ∧ Good (SkipSpacesF fuel fr).2 ∧
    (SkipSpacesF fuel fr).2.stream = s.dropWhile isWS ∧
    (s.dropWhile isWS = [] → (SkipSpacesF fuel fr).2.err = some Err.eof) ∧
    (s.dropWhile isWS ≠ [] → (SkipSpacesF fuel fr).2.err = none) := by
  induction s with
  | nil =>
      intro fr fuel hG hs hf
      cases fuel with
      | zero => omega
      | succ f =>
          obtain ⟨g, hPK, hGg, hstg, heg, hblg⟩ := PeekByte_nil fr hG hs
          simp only [SkipSpacesF, hPK]
          simp [hGg, hstg, heg]
  | cons b rest ih =>
      intro fr fuel hG hs hf
      cases fuel with
      | zero => simp at hf
      | succ f =>
          obtain ⟨g, hPK, hGg, heg, hstg, hblg⟩ := PeekByte_cons fr hG b rest hs
          by_cases hws : isWS b
          · obtain ⟨g2, hRB, hGg2, hstg2, heg2, hblg2⟩ := ReadByte_cons g hGg b rest hstg
            have hrec := ih g2 f hGg2 hstg2 (by simp only [List.length_cons] at hf; omega)
            simp only [SkipSpacesF, hPK, hws, if_true, hRB]
            simpa [List.dropWhile_cons, hws] using hrec
          · simp only [SkipSpacesF, hPK, hws, if_false]
            simp [hws, hGg, hstg, heg, List.dropWhile_cons]

theorem SkipSpaces_good (fr : FastReader) (hG : Good fr) :
    (fr.SkipSpaces).1 = none ∧ Good (fr.SkipSpaces).2 ∧
    (fr.SkipSpaces).2.stream = fr.stream.dropWhile isWS ∧
    (fr.stream.dropWhile isWS = [] → (fr.SkipSpaces).2.err = some Err.eof) ∧
    (fr.stream.dropWhile isWS ≠ [] → (fr.SkipSpaces).2.err = none) := by
  have hfuel := readFuel_ge fr hG.2.1
  exact SkipSpacesF_good fr.stream fr fr.readFuel hG rfl (by omega)

/-- ASCII digit test (the negation of NextInt's break condition). -/
def isDigit (b : Nat) : Bool := decide (48 ≤ b ∧ b ≤ 57)

theorem NextIntLoopF_good (s : List Nat) : ∀ (fr : FastReader) (fuel : Nat) (v : Int) (d : Nat),
    Good fr → fr.stream = s → s.length + 1 ≤ fuel →
    (NextIntLoopF fuel fr v d).1 =
      ((List.foldl digStep v (s.takeWhile isDigit), d + (s.takeWhile isDigit).length), none) ∧
    Good (NextIntLoopF fuel fr v d).2 ∧
    (NextIntLoopF fuel fr v d).2.stream = s.dropWhile isDigit ∧
    (s.dropWhile isDigit = [] → (NextIntLoopF fuel fr v d).2.err = some Err.eof) ∧
    (s.dropWhile isDigit ≠ [] → (NextIntLoopF fuel fr v d).2.err = none) := by
  induction s with
  | nil =>
      intro fr fuel v d hG hs hf
      cases fuel with
      | zero => omega
      | succ f =>
          obtain ⟨g, hPK, hGg, hstg, heg, hblg⟩ := PeekByte_nil fr hG hs
          simp only [NextIntLoopF, hPK]
          simp [hGg, hstg, heg]
  | cons b rest ih =>
      intro fr fuel v d hG hs hf
      cases fuel with
      | zero => simp at hf
      | succ f =>
          obtain ⟨g, hPK, hGg, heg, hstg, hblg⟩ := PeekByte_cons fr hG b rest hs
          by_cases hdig : b < 48 ∨ 57 < b
          · have hdigF : isDigit b = false := by
              unfold isDigit
              simp only [decide_eq_false_iff_not]
              omega
            simp only [NextIntLoopF, hPK, hdig, if_true]
            simp [hGg, hstg, heg, List.dropWhile_cons, List.takeWhile_cons, hdigF]
          · have hdigT : isDigit b = true := by
              unfold isDigit
              simp only [decide_eq_true_eq]
              omega
            obtain ⟨g2, hRB, hGg2, hstg2, heg2, hblg2⟩ := ReadByte_cons g hGg b rest hstg
            have hrec := ih g2 f (digStep v b) (d + 1) hGg2 hstg2
              (by simp only [List.length_cons] at hf; omega)
            simp only [NextIntLoopF, hPK, hdig, if_false, hRB]
            simp only [List.dropWhile_cons, List.takeWhile_cons, hdigT, if_true]
            refine ⟨?_, hrec.2.1, hrec.2.2.1, hrec.2.2.2.1, hrec.2.2.2.2⟩
            rw [hrec.1]
            have : d + 1 + (List.takeWhile isDigit rest).length =
                d + ((List.takeWhile isDigit rest).length + 1) := by omega
            rw [this]
            simp [List.foldl_cons, List.length_cons]

/-! Decimal text and the NextInt accumulator. -/

/-- One step of NextInt's accumulator without the 64-bit wrap. -/
def pureStep (v : Int) (b : Nat) : Int := v * 10 + ((b : Int) - 48)

theorem natDecAux_append (f : Nat) : ∀ (n : Nat) (acc : List Nat),
    natDecAux f n acc = natDecAux f n [] ++ acc := by
  induction f with
  | zero => intro n acc; simp [natDecAux]
  | succ f ih =>
      intro n acc
      by_cases hn : n = 0
      · simp [natDecAux, hn]
      · simp only [natDecAux, hn, if_false]
        rw [ih (n / 10) ((n % 10 + 48) :: acc), ih (n / 10) [n % 10 + 48]]
        simp

theorem natDecAux_digits (f : Nat) : ∀ (n : Nat) (acc : List Nat),
    (∀ b ∈ acc, 48 ≤ b ∧ b ≤ 57) → ∀ b ∈ natDecAux f n acc, 48 ≤ b ∧ b ≤ 57 := by
  induction f with
  | zero => intro n acc hacc; simpa [natDecAux] using hacc
  | succ f ih =>
      intro n acc hacc
      by_cases hn : n = 0
      · simpa [natDecAux, hn] using hacc
      · simp only [natDecAux, hn, if_false]
        apply ih
        intro b hb
        rcases List.mem_cons.1 hb with hb2 | hb2
        · constructor <;> omega
        · exact hacc b hb2

theorem natDec_digits (n : Nat) : ∀ b ∈ natDec n, 48 ≤ b ∧ b ≤ 57 := by
  unfold natDec
  by_cases hn : n = 0
  · simp [hn]
  · simp only [hn, if_false]
    exact natDecAux_digits 20 n [] (by simp)

theorem natDecAux_ne_nil (f : Nat) : ∀ (n : Nat) (acc : List Nat),
    acc ≠ [] ∨ (n ≠ 0 ∧ f ≠ 0) → natDecAux f n acc ≠ [] := by
  induction f with
  | zero =>
      intro n acc h
      rcases h with h | ⟨_, h⟩
      · simpa [natDecAux] using h
      · exact absurd rfl h
  | succ f ih =>
      intro n acc h
      by_cases hn : n = 0
      · have hacc : acc ≠ [] := by
          rcases h with h | ⟨h, _⟩
          · exact h
          · exact absurd hn h
        simpa [natDecAux, hn] using hacc
      · simp only [natDecAux, hn, if_false]
        exact ih (n / 10) ((n % 10 + 48) :: acc) (Or.inl (by simp))

theorem natDec_ne_nil (n : Nat) : natDec n ≠ [] := by
  unfold natDec
  by_cases hn : n = 0
  · simp [hn]
  · simp only [hn, if_false]
    exact natDecAux_ne_nil 20 n [] (Or.inr ⟨hn, by omega⟩)

theorem natDecAux_fold (f : Nat) : ∀ n : Nat, n < 10 ^ f →
    List.foldl pureStep 0 (natDecAux f n []) = n := by
  induction f with
  | zero =>
      intro n hf
      interval_cases n
      simp [natDecAux]
  | succ f ih =>
      intro n hf
      by_cases hn : n = 0
      · simp [natDecAux, hn]
      · simp only [natDecAux, hn, if_false]
        rw [natDecAux_append, List.foldl_append]
        have hdiv : n / 10 < 10 ^ f := by
          rw [Nat.div_lt_iff_lt_mul (by omega)]
          calc n < 10 ^ (f + 1) := hf
          _ = 10 ^ f * 10 := by ring
        rw [ih (n / 10) hdiv]
        simp only [List.foldl_cons, List.foldl_nil]
        unfold pureStep
        push_cast
        omega

theorem natDec_fold (n : Nat) (h : n < 10 ^ 20) :
    List.foldl pureStep 0 (natDec n) = n := by
  unfold natDec
  by_cases hn : n = 0
  · simp [hn, pureStep]
  · simp only [hn, if_false]
    exact natDecAux_fold 20 n h

theorem wrap64_id (x : Int) (h1 : -(2 ^ 63) ≤ x) (h2 : x < 2 ^ 63) : wrap64 x = x := by
  unfold wrap64
  rw [Int.emod_eq_of_lt (by omega) (by omega)]
  omega

theorem pureFold_ge (ds : List Nat) : ∀ v : Int, 0 ≤ v → (∀ b ∈ ds, 48 ≤ b ∧ b ≤ 57) →
    v ≤ List.foldl pureStep v ds ∧ 0 ≤ List.foldl pureStep v ds := by
  induction ds with
  | nil => intro v hv _; simp [hv]
  | cons d tl ih =>
      intro v hv hds
      have hd := hds d (by simp)
      have hstep : v ≤ pureStep v d ∧ 0 ≤ pureStep v d := by
        unfold pureStep
        have : (48 : Int) ≤ (d : Int) := by exact_mod_cast hd.1
        constructor <;> nlinarith
      have := ih (pureStep v d) hstep.2 (fun b hb => hds b (by simp [hb]))
      simp only [List.foldl_cons]
      exact ⟨le_trans hstep.1 this.1, this.2⟩

theorem wrapFold_eq (ds : List Nat) : ∀ v : Int, (∀ b ∈ ds, 48 ≤ b ∧ b ≤ 57) →
    0 ≤ v → v < 2 ^ 63 → List.foldl pureStep v ds ≤ 2 ^ 63 →
    List.foldl digStep v ds = wrap64 (List.foldl pureStep v ds) := by
  induction ds with
  | nil =>
      intro v _ hv0 hv1 _
      simp only [List.foldl_nil]
      exact (wrap64_id v (by omega) hv1).symm
  | cons d tl ih =>
      intro v hds hv0 hv1 hle
      have hd := hds d (by simp)
      have hd48 : (48 : Int) ≤ (d : Int) := by exact_mod_cast hd.1
      have hfold : List.foldl pureStep v (d :: tl) = List.foldl pureStep (pureStep v d) tl := by
        simp [List.foldl_cons]
      have hv'0 : 0 ≤ pureStep v d := by unfold pureStep; nlinarith
      have hle' : List.foldl pureStep (pureStep v d) tl ≤ 2 ^ 63 := by
        rw [← hfold]; exact hle
      have hv'le : pureStep v d ≤ 2 ^ 63 :=
        le_trans (pureFold_ge tl (pureStep v d) hv'0 (fun b hb => hds b (by simp [hb]))).1 hle'
      have hmul : v * 10 < 2 ^ 63 := by
        have hmul_le : v * 10 ≤ pureStep v d := by unfold pureStep; omega
        rcases lt_or_eq_of_le (le_trans hmul_le hv'le) with h | h
        · exact h
        · exfalso; omega
      have hwmul : wrap64 (v * 10) = v * 10 := wrap64_id _ (by nlinarith) hmul
      have hstepeq : digStep v d = wrap64 (pureStep v d) := by
        unfold digStep pureStep
        rw [hwmul]
      rcases lt_or_eq_of_le hv'le with hlt | heq
      · -- no wrap yet: identify the step value and recurse
        have hwid : wrap64 (pureStep v d) = pureStep v d :=
          wrap64_id _ (le_trans (by norm_num) hv'0) hlt
        simp only [List.foldl_cons]
        rw [hstepeq, hwid]
        exact ih (pureStep v d) (fun b hb => hds b (by simp [hb])) hv'0 hlt hle'
      · -- the accumulator hits exactly 2^63: no further digits can follow
        have htl : tl = [] := by
          cases htl : tl with
          | nil => rfl
          | cons e t2 =>
              exfalso
              have he := hds e (by simp [htl])
              have he48 : (48 : Int) ≤ (e : Int) := by exact_mod_cast he.1
              have h2 : pureStep (pureStep v d) e ≤
                  List.foldl pureStep (pureStep (pureStep v d) e) t2 :=
                (pureFold_ge t2 _ (by unfold pureStep; nlinarith)
                  (fun b hb => hds b (by simp [htl, hb]))).1
              have h3 : List.foldl pureStep (pureStep v d) tl ≤ 2 ^ 63 := hle'
              rw [htl] at h3
              simp only [List.foldl_cons] at h3
              have h4 : pureStep (pureStep v d) e ≤ 2 ^ 63 := le_trans h2 h3
              unfold pureStep at h4 heq
              omega
        subst htl
        simp only [List.foldl_cons, List.foldl_nil]
        rw [hstepeq]

theorem digAccum_natDec (m : Nat) (hm : m ≤ 2 ^ 63) :
    List.foldl digStep 0 (natDec m) = wrap64 m := by
  have h10 : m < 10 ^ 20 := by
    have h1 : (2 : Nat) ^ 63 < 10 ^ 20 := by norm_num
    omega
  have hfold := natDec_fold m h10
  have hcast : (List.foldl pureStep 0 (natDec m)) ≤ 2 ^ 63 := by
    rw [hfold]; exact_mod_cast hm
  have := wrapFold_eq (natDec m) 0 (natDec_digits m) (le_refl 0) (by norm_num) hcast
  rw [this, hfold]

theorem isWS_eq_false (b : Nat) (h : 48 ≤ b) : isWS b = false := by
  unfold isWS
  simp only [Bool.or_eq_false_iff, beq_eq_false_iff_ne, ne_eq]
  omega

theorem dropWhile_allWS (w t : List Nat) (hw : allWS w) :
    (w ++ t).dropWhile isWS = t.dropWhile isWS := by
  induction w with
  | nil => simp
  | cons a l ih =>
      have ha : isWS a = true := hw a (by simp)
      simp only [List.cons_append, List.dropWhile_cons, ha, if_true]
      exact ih (fun b hb => hw b (by simp [hb]))

theorem takeWhile_all_append (p : Nat → Bool) (xs : List Nat) (y : Nat) (ys : List Nat)
    (hxs : ∀ b ∈ xs, p b = true) (hy : p y = false) :
    (xs ++ y :: ys).takeWhile p = xs ∧ (xs ++ y :: ys).dropWhile p = y :: ys := by
  induction xs with
  | nil => simp [List.takeWhile_cons, List.dropWhile_cons, hy]
  | cons a l ih =>
      have ha : p a = true := hxs a (by simp)
      have := ih (fun b hb => hxs b (by simp [hb]))
      simp only [List.cons_append, List.takeWhile_cons, List.dropWhile_cons, ha, if_true]
      exact ⟨by rw [this.1], this.2⟩

theorem NextInt_good_token (fr : FastReader) (hG : Good fr) (w : List Nat) (v : Int)
    (rest : List Nat) (hw : allWS w) (hv1 : -(2 ^ 63) ≤ v) (hv2 : v < 2 ^ 63)
    (hs : fr.stream = w ++ (intDec v ++ 32 :: rest)) :
    (fr.NextInt).1 = (v, none) ∧ Good (fr.NextInt).2 ∧
    (fr.NextInt).2.stream = 32 :: rest ∧ (fr.NextInt).2.err = none := by
  obtain ⟨hsk1, hskG, hskS, hskE1, hskE2⟩ := SkipSpaces_good fr hG
  have hSS : fr.SkipSpaces = (none, (fr.SkipSpaces).2) := by rw [← hsk1]
  set s1 := (fr.SkipSpaces).2 with hs1def
  by_cases hv : v < 0
  · -- negative value: leading '-' then the digits of the absolute value
    set m := (-v).toNat with hm
    have hmv : ((m : Int)) = -v := by rw [hm]; exact Int.toNat_of_nonneg (by omega)
    have hm63 : m ≤ 2 ^ 63 := by
      have : ((m : Int)) ≤ 2 ^ 63 := by rw [hmv]; omega
      exact_mod_cast this
    have hdec : intDec v = 45 :: natDec m := by simp [intDec, hv, hm]
    have hstream1 : s1.stream = 45 :: (natDec m ++ 32 :: rest) := by
      rw [hskS, hs, dropWhile_allWS w _ hw, hdec]
      simp [List.dropWhile_cons, show isWS 45 = false by decide]
    obtain ⟨p1, hPK, hGp1, hep1, hsp1, hblp1⟩ :=
      PeekByte_cons s1 hskG 45 (natDec m ++ 32 :: rest) hstream1
    obtain ⟨p2, hRB, hGp2, hsp2, hep2, hblp2⟩ :=
      ReadByte_cons p1 hGp1 45 (natDec m ++ 32 :: rest) hsp1
    have hrne : natDec m ++ 32 :: rest ≠ [] := by
      cases hnd : natDec m <;> simp
    rw [if_neg hrne] at hRB hep2
    obtain ⟨htw, hdw⟩ := takeWhile_all_append isDigit (natDec m) 32 rest
      (fun b hb => by
        have := natDec_digits m b hb
        unfold isDigit
        simp only [decide_eq_true_eq]
        omega)
      (by decide)
    have hfuel : (natDec m ++ 32 :: rest).length + 1 ≤ p2.readFuel := by
      have := readFuel_ge p2 hGp2.2.1
      rw [hsp2] at this
      omega
    obtain ⟨hlp1, hlpG, hlpS, hlpE1, hlpE2⟩ :=
      NextIntLoopF_good (natDec m ++ 32 :: rest) p2 p2.readFuel 0 0 hGp2 hsp2 hfuel
    rw [htw] at hlp1
    rw [hdw] at hlpS hlpE1 hlpE2
    set q := (NextIntLoopF p2.readFuel p2 0 0).2 with hq
    have hloopEq : NextIntLoopF p2.readFuel p2 0 0 =
        (((List.foldl digStep 0 (natDec m), 0 + (natDec m).length), none), q) := by
      rw [hq, ← hlp1]
    have hdne : ¬ (0 + (natDec m).length = 0) := by
      have := natDec_ne_nil m
      cases hnd : natDec m with
      | nil => exact absurd hnd this
      | cons x xs => simp [hnd]
    have hval : List.foldl digStep 0 (natDec m) = wrap64 m := digAccum_natDec m hm63
    have hNI : fr.NextInt = ((wrap64 ((-1) * wrap64 m), none), q) := by
      simp only [FastReader.NextInt, hSS, ← hs1def, hPK, hRB, if_true]
      simp only [true_or, false_or, or_self, if_true, if_false]
      rw [hloopEq]
      simp [hdne, hval, natDec_ne_nil m]
    have hfin : wrap64 ((-1) * wrap64 m) = v := by
      rcases lt_or_eq_of_le hm63 with hlt | heql
      · have hmlt : ((m : Int)) < 2 ^ 63 := by exact_mod_cast hlt
        rw [wrap64_id m (by omega) hmlt]
        rw [show ((-1) * (m : Int)) = -m by ring]
        rw [wrap64_id (-(m : Int)) (by omega) (by omega)]
        omega
      · have : ((m : Int)) = 2 ^ 63 := by exact_mod_cast heql
        rw [this]
        have h1 : wrap64 (2 ^ 63) = -(2 ^ 63) := by decide
        rw [h1, show ((-1) * -(2 ^ 63) : Int) = 2 ^ 63 by ring, h1]
        omega
    rw [hNI, hfin]
    exact ⟨rfl, hlpG, hlpS, hlpE2 (by simp)⟩
  · -- non-negative value: the digits of the value itself
    set m := v.toNat with hm
    have hmv : ((m : Int)) = v := by rw [hm]; exact Int.toNat_of_nonneg (by omega)
    have hm63 : m < 2 ^ 63 := by
      have : ((m : Int)) < 2 ^ 63 := by rw [hmv]; omega
      exact_mod_cast this
    have hdec : intDec v = natDec m := by simp [intDec, hv, hm]
    obtain ⟨h0, t0, hnd⟩ := List.exists_cons_of_ne_nil (natDec_ne_nil m)
    have hd0 := natDec_digits m h0 (by rw [hnd]; simp)
    have hstream1 : s1.stream = h0 :: (t0 ++ 32 :: rest) := by
      rw [hskS, hs, dropWhile_allWS w _ hw, hdec, hnd]
      simp [List.dropWhile_cons, isWS_eq_false h0 hd0.1]
    obtain ⟨p1, hPK, hGp1, hep1, hsp1, hblp1⟩ :=
      PeekByte_cons s1 hskG h0 (t0 ++ 32 :: rest) hstream1
    have hsp1' : p1.stream = natDec m ++ 32 :: rest := by
      rw [hsp1, hnd]
      simp
    obtain ⟨htw, hdw⟩ := takeWhile_all_append isDigit (natDec m) 32 rest
      (fun b hb => by
        have := natDec_digits m b hb
        unfold isDigit
        simp only [decide_eq_true_eq]
        omega)
      (by decide)
    have hfuel : (natDec m ++ 32 :: rest).length + 1 ≤ p1.readFuel := by
      have := readFuel_ge p1 hGp1.2.1
      rw [hsp1'] at this
      omega
    obtain ⟨hlp1, hlpG, hlpS, hlpE1, hlpE2⟩ :=
      NextIntLoopF_good (natDec m ++ 32 :: rest) p1 p1.readFuel 0 0 hGp1 hsp1' hfuel
    rw [htw] at hlp1
    rw [hdw] at hlpS hlpE1 hlpE2
    set q := (NextIntLoopF p1.readFuel p1 0 0).2 with hq
    have hloopEq : NextIntLoopF p1.readFuel p1 0 0 =
        (((List.foldl digStep 0 (natDec m), 0 + (natDec m).length), none), q) := by
      rw [hq, ← hlp1]
    have hdne : ¬ (0 + (natDec m).length = 0) := by
      have := natDec_ne_nil m
      cases hnd2 : natDec m with
      | nil => exact absurd hnd2 this
      | cons x xs => simp [hnd2]
    have hval : List.foldl digStep 0 (natDec m) = wrap64 m :=
      digAccum_natDec m (le_of_lt hm63)
    have h45 : ¬ (h0 = 45) := by omega
    have h43 : ¬ (h0 = 43) := by omega
    have h4543 : ¬ (h0 = 45 ∨ h0 = 43) := by omega
    have hNI : fr.NextInt = ((wrap64 (1 * wrap64 m), none), q) := by
      simp only [FastReader.NextInt, hSS, ← hs1def, hPK, h45, h43, h4543, if_false]
      simp only [true_or, false_or, or_self, if_true, if_false]
      rw [hloopEq]
      simp [hdne, hval, natDec_ne_nil m]
    have hfin : wrap64 (1 * wrap64 m) = v := by
      have hmlt : ((m : Int)) < 2 ^ 63 := by exact_mod_cast hm63
      rw [wrap64_id m (by omega) hmlt, one_mul, wrap64_id (m : Int) (by omega) hmlt]
      exact hmv
    rw [hNI, hfin]
    exact ⟨rfl, hlpG, hlpS, hlpE2 (by simp)⟩

theorem tokens_cons (v : Int) (vs : List Int) :
    tokens (v :: vs) = intDec v ++ 32 :: tokens vs := by
  simp [tokens]

theorem runNextInts_tokens (vs : List Int) :
    (∀ u ∈ vs, -(2 ^ 63) ≤ u ∧ u < 2 ^ 63) →
    ∀ (fr : FastReader) (w : List Nat), Good fr → allWS w → fr.stream = w ++ tokens vs →
    (runNextInts vs.length fr).1 = vs := by
  induction vs with
  | nil => intro _ fr w _ _ _; simp [runNextInts]
  | cons v tl ih =>
      intro hb fr w hG hw hs
      have hv := hb v (by simp)
      have hNI := NextInt_good_token fr hG w v (tokens tl) hw hv.1 hv.2
        (by rw [hs, tokens_cons])
      have h2 := ih (fun u hu => hb u (by simp [hu])) (fr.NextInt).2 [32] hNI.2.1
        (by intro b hb2; simp at hb2; subst hb2; decide)
        (by rw [hNI.2.2.1]; rfl)
      simp only [runNextInts, List.length_cons]
      simp [hNI.1, h2]

/-! Writer lemmas over an accept-all sink. -/

theorem listCopy_length (buf seg : List Nat) (pos : Nat) (h : pos + seg.length ≤ buf.length) :
    (listCopy buf pos seg).length = buf.length := by
  unfold listCopy
  simp only [List.length_append, List.length_take, List.length_drop]
  omega

theorem listCopy_take (buf seg : List Nat) (pos : Nat) (hp : pos ≤ buf.length)
    (h : pos + seg.length ≤ buf.length) :
    (listCopy buf pos seg).take (pos + seg.length) = buf.take pos ++ seg := by
  unfold listCopy
  rw [List.append_assoc (buf.take pos) seg, ← List.append_assoc]
  have hlen : (buf.take pos ++ seg).length = pos + seg.length := by
    simp only [List.length_append, List.length_take]
    omega
  rw [← hlen, List.take_left]

/-- The sink after an accepted write of `chunk`. -/
def sinkAfter (s : Sink) (chunk : List Nat) : Sink :=
  { script := [], received := s.received ++ chunk, calls := s.calls ++ [chunk] }

theorem sinkWrite_ok (s : Sink) (hs : s.script = []) (p : List Nat) :
    s.write p = ((p.length, none), sinkAfter s p) := by
  simp [Sink.write, hs, sinkAfter]

theorem checkWriter_wg (fw : FastWriter) (h : WGood fw) :
    fw.checkWriter = (none, { fw with sink := sinkAfter fw.sink [] }) := by
  obtain ⟨h1, h2, _, _⟩ := h
  simp [FastWriter.checkWriter, h1, sinkWrite_ok fw.sink h2]

theorem Flush_wg_zero (fw : FastWriter) (h : WGood fw) (hp : fw.pos = 0) :
    fw.Flush = (none, fw) := by
  obtain ⟨h1, _, _, _⟩ := h
  simp [FastWriter.Flush, h1, hp]

theorem Flush_wg_pos (fw : FastWriter) (h : WGood fw) (hp : fw.pos ≠ 0) :
    fw.Flush = (none, { fw with
      pos := 0
      sink := sinkAfter fw.sink (fw.buf.take fw.pos) }) := by
  obtain ⟨h1, h2, h3, h4⟩ := h
  have hlen : (fw.buf.take fw.pos).length = fw.pos := by
    simp only [List.length_take]
    omega
  have hnlt : ¬ ((fw.buf.take fw.pos).length < fw.pos) := by omega
  simp [FastWriter.Flush, h1, hp, sinkWrite_ok fw.sink h2, hnlt]
  exact h3

theorem Flush_wg (fw : FastWriter) (h : WGood fw) :
    (fw.Flush).1 = none ∧ WGood (fw.Flush).2 ∧ (fw.Flush).2.pos = 0 ∧
    (fw.Flush).2.sink.received = wOut fw ∧ (fw.Flush).2.buf = fw.buf ∧
    (fw.Flush).2.autoFlush = fw.autoFlush ∧ (fw.Flush).2.limit = fw.limit ∧
    wOut (fw.Flush).2 = wOut fw ∧ (fw.Flush).2.sink.script = [] := by
  obtain ⟨h1, h2, h3, h4⟩ := h
  by_cases hp : fw.pos = 0
  · rw [Flush_wg_zero fw ⟨h1, h2, h3, h4⟩ hp]
    refine ⟨rfl, ⟨h1, h2, h3, h4⟩, hp, ?_, rfl, rfl, rfl, rfl, h2⟩
    unfold wOut
    rw [hp]
    simp
  · rw [Flush_wg_pos fw ⟨h1, h2, h3, h4⟩ hp]
    refine ⟨rfl, ⟨h1, rfl, Nat.zero_le _, h4⟩, rfl, ?_, rfl, rfl, rfl, ?_, rfl⟩
    · unfold wOut sinkAfter
      rfl
    · unfold wOut sinkAfter
      simp

theorem ensureSpace_wg (fw : FastWriter) (h : WGood fw) (k : Nat) :
    (fw.ensureSpace k).1 = none ∧ WGood (fw.ensureSpace k).2 ∧
    wOut (fw.ensureSpace k).2 = wOut fw ∧ (fw.ensureSpace k).2.buf = fw.buf ∧
    (fw.ensureSpace k).2.autoFlush = fw.autoFlush ∧ (fw.ensureSpace k).2.limit = fw.limit ∧
    ((fw.ensureSpace k).2.pos + k ≤ fw.buf.length ∨
      (fw.buf.length < k ∧ (fw.ensureSpace k).2.pos = 0)) := by
  obtain ⟨h1, h2, h3, h4⟩ := h
  have hW : WGood fw := ⟨h1, h2, h3, h4⟩
  have herr : ¬ (fw.err ≠ none) := by simp [h1]
  by_cases hp : fw.pos = 0
  · -- empty buffer: the probe runs first
    set f1 : FastWriter := { fw with sink := sinkAfter fw.sink [] } with hf1
    have hf1W : WGood f1 := ⟨h1, rfl, h3, h4⟩
    have hf1pos : f1.pos = 0 := hp
    have hf1out : wOut f1 = wOut fw := by
      simp [hf1, wOut, sinkAfter]
    have hstep : (if fw.pos = 0 then fw.checkWriter else (none, fw)) = (none, f1) := by
      rw [if_pos hp, checkWriter_wg fw hW]
    by_cases hb : fw.buf.length < k
    · -- oversized request: flush (a no-op here) then the stray zero-length write
      have hFL : f1.Flush = (none, f1) := Flush_wg_zero f1 hf1W hf1pos
      have hprobe := sinkWrite_ok f1.sink rfl []
      have hE : fw.ensureSpace k = (none, { f1 with sink := sinkAfter f1.sink [] }) := by
        simp only [FastWriter.ensureSpace, herr, if_false, hstep, hb, if_true, hFL,
          hprobe]
      rw [hE]
      refine ⟨rfl, ⟨h1, rfl, h3, h4⟩, ?_, rfl, rfl, rfl, Or.inr ⟨hb, hp⟩⟩
      simp [hf1, wOut, sinkAfter]
    · -- pos = 0 and k fits: no flush either way
      have hc : ¬ fw.buf.length < f1.pos + k := by
        rw [hf1pos]
        omega
      have hc' : ¬ f1.buf.length < f1.pos + k := by
        rw [hf1]; simpa using hc
      have hb' : ¬ f1.buf.length < k := by
        rw [hf1]; simpa using hb
      have hE : fw.ensureSpace k = (none, f1) := by
        simp only [FastWriter.ensureSpace, herr, if_false, hstep, hb', hc', if_false]
      rw [hE]
      refine ⟨rfl, hf1W, hf1out, rfl, rfl, rfl, Or.inl ?_⟩
      rw [hf1pos]
      omega
  · -- non-empty buffer: no probe
    have hstep : (if fw.pos = 0 then fw.checkWriter else (none, fw)) = (none, fw) := by
      rw [if_neg hp]
    by_cases hb : fw.buf.length < k
    · -- oversized request: flush the pending bytes, then the stray zero-length write
      have hFL : fw.Flush = (none, { fw with
          pos := 0
          sink := sinkAfter fw.sink (fw.buf.take fw.pos) }) := Flush_wg_pos fw hW hp
      set f2 : FastWriter := { fw with
          pos := 0
          sink := sinkAfter fw.sink (fw.buf.take fw.pos) } with hf2
      have hprobe := sinkWrite_ok f2.sink rfl []
      have hE : fw.ensureSpace k = (none, { f2 with sink := sinkAfter f2.sink [] }) := by
        simp only [FastWriter.ensureSpace, herr, if_false, hstep, hb, if_true, hFL,
          hprobe]
      rw [hE]
      refine ⟨rfl, ⟨h1, rfl, Nat.zero_le _, h4⟩, ?_, rfl, rfl, rfl, Or.inr ⟨hb, rfl⟩⟩
      simp [hf2, wOut, sinkAfter]
    · by_cases hc : fw.buf.length < fw.pos + k
      · -- not enough free space: flush
        have hFL : fw.Flush = (none, { fw with
            pos := 0
            sink := sinkAfter fw.sink (fw.buf.take fw.pos) }) := Flush_wg_pos fw hW hp
        have hE : fw.ensureSpace k = (none, { fw with
            pos := 0
            sink := sinkAfter fw.sink (fw.buf.take fw.pos) }) := by
          simp only [FastWriter.ensureSpace, herr, if_false, hstep, hb, hc, if_true,
            if_false, hFL]
        rw [hE]
        refine ⟨rfl, ⟨h1, rfl, Nat.zero_le _, h4⟩, ?_, rfl, rfl, rfl,
          Or.inl (show 0 + k ≤ fw.buf.length by omega)⟩
        simp [wOut, sinkAfter]
      · -- fits in the free space
        have hE : fw.ensureSpace k = (none, fw) := by
          simp only [FastWriter.ensureSpace, herr, if_false, hstep, hb, hc, if_false]
        rw [hE]
        exact ⟨rfl, hW, rfl, rfl, rfl, rfl,
          Or.inl (show fw.pos + k ≤ fw.buf.length by omega)⟩

theorem writeLoopF_wg (fuel : Nat) : ∀ (fw : FastWriter) (p : List Nat) (total : Nat),
    WGood fw → p.length + 1 ≤ fuel →
    (writeLoopF fuel fw p total).1 = (total + p.length, none) ∧
    WGood (writeLoopF fuel fw p total).2 ∧
    wOut (writeLoopF fuel fw p total).2 = wOut fw ++ p ∧
    (writeLoopF fuel fw p total).2.buf.length = fw.buf.length ∧
    (writeLoopF fuel fw p total).2.autoFlush = fw.autoFlush ∧
    (writeLoopF fuel fw p total).2.limit = fw.limit := by
  induction fuel with
  | zero => intro fw p total h hf; omega
  | succ f ih =>
      intro fw p total h hf
      by_cases hp : p = []
      · subst hp
        simp [writeLoopF, h]
      · obtain ⟨he1, heW, heO, heB, heA, heL, heP⟩ := ensureSpace_wg fw h p.length
        have hE : fw.ensureSpace p.length = (none, (fw.ensureSpace p.length).2) := by
          rw [← he1]
        set f1 := (fw.ensureSpace p.length).2 with hf1
        have hbl : f1.buf.length = fw.buf.length := by rw [heB]
        have hple : 0 < p.length := List.length_pos.2 hp
        set k := min (f1.buf.length - f1.pos) p.length with hk
        have hkle : k ≤ p.length := min_le_right _ _
        have hkpos : 0 < k := by
          rcases heP with hcase | hcase
          · rw [hk]
            have : p.length ≤ f1.buf.length - f1.pos := by omega
            omega
          · rw [hk, hcase.2, hbl]
            have := heW.2.2.2
            omega
        have hkfit : f1.pos + k ≤ f1.buf.length := by
          rw [hk]
          omega
        have hseglen : (p.take k).length = k := by
          simp only [List.length_take]
          omega
        set f2 : FastWriter := { f1 with
            buf := listCopy f1.buf f1.pos (p.take k)
            pos := f1.pos + k } with hf2
        have hf2len : f2.buf.length = f1.buf.length := by
          rw [hf2]
          exact listCopy_length f1.buf (p.take k) f1.pos (by rw [hseglen]; exact hkfit)
        have hf2W : WGood f2 := by
          refine ⟨heW.1, heW.2.1, ?_, ?_⟩
          · rw [hf2len]
            exact hkfit
          · rw [hf2len]
            exact heW.2.2.2
        have hf2out : wOut f2 = wOut fw ++ p.take k := by
          show f2.sink.received ++ f2.buf.take f2.pos = wOut fw ++ p.take k
          rw [hf2]
          have : f1.pos + k = f1.pos + (p.take k).length := by rw [hseglen]
          simp only [this]
          rw [listCopy_take f1.buf (p.take k) f1.pos (le_trans (by omega) (le_refl _))
            (by rw [hseglen]; exact hkfit)]
          rw [← List.append_assoc]
          rw [show f1.sink.received ++ f1.buf.take f1.pos = wOut f1 from rfl, heO]
        have hfuel2 : (p.drop k).length + 1 ≤ f := by
          simp only [List.length_drop]
          omega
        have htot : total + k + (p.drop k).length = total + p.length := by
          simp only [List.length_drop]
          omega
        by_cases haf : f2.autoFlush = true ∧ f2.limit ≤ f2.pos
        · obtain ⟨hfl1, hflW, hflp, hflr, hflb, hflaf, hfll, hflo, hfls⟩ := Flush_wg f2 hf2W
          set f3 := (f2.Flush).2 with hf3
          have hFL : f2.Flush = (none, f3) := by rw [hf3, ← hfl1]
          have hrec := ih f3 (p.drop k) (total + k) hflW hfuel2
          have hres : writeLoopF (f + 1) fw p total =
              writeLoopF f f3 (p.drop k) (total + k) := by
            simp only [writeLoopF, hp, if_false, hE]
            simp only [← hf1, ← hk, ← hf2, haf.1, haf.2, and_self, if_true, hFL]
            simp [haf]
            intro hcon
            have hcon2 : f2.autoFlush = false := hcon
            rw [haf.1] at hcon2
            simp at hcon2
          rw [hres]
          refine ⟨?_, hrec.2.1, ?_, ?_, ?_, ?_⟩
          · rw [hrec.1, htot]
          · rw [hrec.2.2.1, hflo, hf2out, List.append_assoc, List.take_append_drop]
          · rw [hrec.2.2.2.1]
            have : f3.buf.length = f2.buf.length := by rw [hflb]
            rw [this, hf2len, hbl]
          · rw [hrec.2.2.2.2.1]
            have : f3.autoFlush = f2.autoFlush := hflaf
            rw [this, hf2]
            show f1.autoFlush = fw.autoFlush
            exact heA
          · rw [hrec.2.2.2.2.2]
            have : f3.limit = f2.limit := hfll
            rw [this, hf2]
            show f1.limit = fw.limit
            exact heL
        · have hrec := ih f2 (p.drop k) (total + k) hf2W hfuel2
          have hres : writeLoopF (f + 1) fw p total =
              writeLoopF f f2 (p.drop k) (total + k) := by
            simp only [writeLoopF, hp, if_false, hE]
            simp only [← hf1, ← hk, ← hf2]
            simp [haf]
          rw [hres]
          refine ⟨?_, hrec.2.1, ?_, ?_, ?_, ?_⟩
          · rw [hrec.1, htot]
          · rw [hrec.2.2.1, hf2out, List.append_assoc, List.take_append_drop]
          · rw [hrec.2.2.2.1, hf2len, hbl]
          · rw [hrec.2.2.2.2.1, hf2]
            show f1.autoFlush = fw.autoFlush
            exact heA
          · rw [hrec.2.2.2.2.2, hf2]
            show f1.limit = fw.limit
            exact heL

theorem Write_wg (fw : FastWriter) (p : List Nat) (h : WGood fw) :
    (fw.Write p).1 = (p.length, none) ∧ WGood (fw.Write p).2 ∧
    wOut (fw.Write p).2 = wOut fw ++ p ∧
    (fw.Write p).2.buf.length = fw.buf.length ∧
    (fw.Write p).2.autoFlush = fw.autoFlush ∧ (fw.Write p).2.limit = fw.limit := by
  have herr : ¬ (fw.err ≠ none) := by simp [h.1]
  have hmain := writeLoopF_wg (p.length + 1) fw p 0 h (le_refl _)
  simp only [FastWriter.Write, herr, if_false]
  simpa using hmain

theorem WriteByte_wg (fw : FastWriter) (b : Nat) (h : WGood fw) :
    (fw.WriteByte b).1 = none ∧ WGood (fw.WriteByte b).2 ∧
    wOut (fw.WriteByte b).2 = wOut fw ++ [b] ∧
    (fw.WriteByte b).2.buf.length = fw.buf.length ∧
    (fw.WriteByte b).2.autoFlush = fw.autoFlush ∧ (fw.WriteByte b).2.limit = fw.limit := by
  obtain ⟨he1, heW, heO, heB, heA, heL, heP⟩ := ensureSpace_wg fw h 1
  have hE : fw.ensureSpace 1 = (none, (fw.ensureSpace 1).2) := by rw [← he1]
  set f1 := (fw.ensureSpace 1).2 with hf1
  have hbl : f1.buf.length = fw.buf.length := by rw [heB]
  have hfit : f1.pos + 1 ≤ f1.buf.length := by
    rcases heP with hcase | hcase
    · omega
    · have := h.2.2.2
      omega
  set f2 : FastWriter := { f1 with
      buf := listCopy f1.buf f1.pos [b]
      pos := f1.pos + 1 } with hf2
  have hf2len : f2.buf.length = f1.buf.length := by
    rw [hf2]
    exact listCopy_length f1.buf [b] f1.pos (by simpa using hfit)
  have hf2W : WGood f2 := by
    refine ⟨heW.1, heW.2.1, ?_, ?_⟩
    · rw [hf2len]
      exact hfit
    · rw [hf2len]
      exact heW.2.2.2
  have hf2out : wOut f2 = wOut fw ++ [b] := by
    show f2.sink.received ++ f2.buf.take f2.pos = wOut fw ++ [b]
    rw [hf2]
    have h1b : f1.pos + 1 = f1.pos + ([b] : List Nat).length := by simp
    simp only [h1b]
    rw [listCopy_take f1.buf [b] f1.pos (by omega) (by simpa using hfit)]
    rw [← List.append_assoc]
    rw [show f1.sink.received ++ f1.buf.take f1.pos = wOut f1 from rfl, heO]
  by_cases haf : f2.autoFlush = true ∧ f2.limit ≤ f2.pos
  · obtain ⟨hfl1, hflW, hflp, hflr, hflb, hflaf, hfll, hflo, hfls⟩ := Flush_wg f2 hf2W
    have hres : fw.WriteByte b = f2.Flush := by
      simp only [FastWriter.WriteByte, hE, ← hf2]
      simp [haf]
      intro hcon
      have hcon2 : f2.autoFlush = false := hcon
      rw [haf.1] at hcon2
      simp at hcon2
    rw [hres]
    refine ⟨hfl1, hflW, ?_, ?_, ?_, ?_⟩
    · rw [hflo, hf2out]
    · rw [show (f2.Flush).2.buf.length = f2.buf.length from by rw [hflb], hf2len, hbl]
    · rw [hflaf, hf2]
      show f1.autoFlush = fw.autoFlush
      exact heA
    · rw [hfll, hf2]
      show f1.limit = fw.limit
      exact heL
  · have hres : fw.WriteByte b = (none, f2) := by
      simp only [FastWriter.WriteByte, hE, ← hf2]
      simp [haf]
    rw [hres]
    refine ⟨rfl, hf2W, hf2out, by rw [hf2len, hbl], ?_, ?_⟩
    · rw [hf2]
      show f1.autoFlush = fw.autoFlush
      exact heA
    · rw [hf2]
      show f1.limit = fw.limit
      exact heL

theorem WriteBytes_wg (fw : FastWriter) (p : List Nat) (h : WGood fw) :
    (fw.WriteBytes p).1 = none ∧ WGood (fw.WriteBytes p).2 ∧
    wOut (fw.WriteBytes p).2 = wOut fw ++ p ∧
    (fw.WriteBytes p).2.buf.length = fw.buf.length ∧
    (fw.WriteBytes p).2.autoFlush = fw.autoFlush ∧
    (fw.WriteBytes p).2.limit = fw.limit := by
  have hmain := Write_wg fw p h
  unfold FastWriter.WriteBytes
  exact ⟨by rw [hmain.1], hmain.2.1, hmain.2.2.1, hmain.2.2.2.1,
    hmain.2.2.2.2.1, hmain.2.2.2.2.2⟩

theorem WriteInt_wg (fw : FastWriter) (v : Int) (h : WGood fw) :
    (fw.WriteInt v).1 = none ∧ WGood (fw.WriteInt v).2 ∧
    wOut (fw.WriteInt v).2 = wOut fw ++ intDec v ∧
    (fw.WriteInt v).2.buf.length = fw.buf.length ∧
    (fw.WriteInt v).2.autoFlush = fw.autoFlush ∧
    (fw.WriteInt v).2.limit = fw.limit :=
  WriteBytes_wg fw (intDec v) h

theorem writeIntSeq_wg (vs : List Int) : ∀ fw : FastWriter, WGood fw →
    WGood (writeIntSeq vs fw) ∧ wOut (writeIntSeq vs fw) = wOut fw ++ tokens vs := by
  induction vs with
  | nil => intro fw h; exact ⟨h, by simp [writeIntSeq, tokens]⟩
  | cons v tl ih =>
      intro fw h
      have wint := WriteInt_wg fw v h
      have wbyte := WriteByte_wg (fw.WriteInt v).2 32 wint.2.1
      have hmain := ih (((fw.WriteInt v).2).WriteByte 32).2 wbyte.2.1
      simp only [writeIntSeq]
      refine ⟨hmain.1, ?_⟩
      rw [hmain.2, wbyte.2.2.1, wint.2.2.1, tokens_cons]
      simp [List.append_assoc]

/-- C1: writing every value of an int sequence with WriteInt, each followed
by one whitespace byte via WriteByte, then flushing, and re-reading the
bytes the sink received with repeated NextInt calls, returns exactly the
original sequence — including negative values, zero and the extreme 64-bit
values.  The writer starts from any state with an accept-all sink, an empty
buffer and nothing yet received; the reader is any conforming reader whose
remaining stream is exactly the flushed output (NewReader over a
strings.Reader-style source of those bytes is such a reader). -/
theorem c1_write_read_roundtrip (vs : List Int)
    (hvs : ∀ u ∈ vs, -(2 ^ 63) ≤ u ∧ u < 2 ^ 63)
    (fw : FastWriter) (hfw : WGood fw) (hrec : fw.sink.received = []) (hpos : fw.pos = 0)
    (fr : FastReader) (hfr : Good fr)
    (hstream : fr.stream = ((writeIntSeq vs fw).Flush).2.sink.received) :
    (runNextInts vs.length fr).1 = vs := by
  have hseq := writeIntSeq_wg vs fw hfw
  have hout0 : wOut fw = [] := by
    unfold wOut
    rw [hrec, hpos]
    simp
  obtain ⟨hfl1, hflW, hflp, hflr, hflrest⟩ := Flush_wg (writeIntSeq vs fw) hseq.1
  have hS : ((writeIntSeq vs fw).Flush).2.sink.received = tokens vs := by
    rw [hflr, hseq.2, hout0]
    simp
  rw [hS] at hstream
  exact runNextInts_tokens vs hvs fr [] hfr (by intro b hb; simp at hb)
    (by rw [hstream]; simp)

/-- Concrete writer for the C1 witness: capacity-4 buffer over an empty
accept-all sink. -/
def c1Writer : FastWriter :=
  { sink := { script := [], received := [], calls := [] }, buf := [0, 0, 0, 0],
    pos := 0, err := none, autoFlush := false, limit := 2 }

/-- Concrete reader for the C1 witness: a fresh reader over the bytes the
writer produced, covering the minimal int64, zero and a positive value. -/
def c1Reader : FastReader :=
  mkRd ((writeIntSeq [-9223372036854775808, 0, 7] c1Writer).Flush).2.sink.received

theorem c1_write_read_roundtrip_witness :
    (runNextInts 3 c1Reader).1 = [-9223372036854775808, 0, 7] :=
  c1_write_read_roundtrip [-9223372036854775808, 0, 7] (by decide)
    c1Writer (by decide) rfl rfl c1Reader (by decide) (by decide)

/-- C9: when ReadByte consumes the last remaining byte and the source then
yields zero bytes with no failure (an exhausted script: every further Read
reports zero bytes and no error), that same call returns the valid byte
together with the EndOfInput error — not the byte with success and the
error only on the next call — and the byte is the correct next input
byte, buffer[position]. -/
theorem c9_last_byte_carries_eof (fr : FastReader) (h1 : fr.err = none)
    (h2 : fr.pos + 1 = fr.n) (h3 : fr.src = []) :
    fr.ReadByte = ((fr.buf.getD fr.pos 0, some Err.eof),
      { fr with pos := 0, n := 0, err := some Err.eof }) := by
  have hnp : ¬ fr.n ≤ fr.pos := by omega
  have hED : fr.ensureData = (none, fr) := by
    simp [FastReader.ensureData, h1, hnp]
  have hfill : FastReader.fill
      { src := fr.src, buf := fr.buf, pos := fr.pos + 1, n := fr.n, err := none } =
      { src := fr.src, buf := fr.buf, pos := 0, n := 0, err := none } := by
    rw [fill_none_nil _ rfl (by simp [h3])]
  simp only [FastReader.ReadByte, hED]
  have hc : ({ fr with pos := fr.pos + 1 } : FastReader).n ≤
      ({ fr with pos := fr.pos + 1 } : FastReader).pos := by
    simp
    omega
  simp [hc, h1, hfill]

theorem c9_last_byte_carries_eof_witness :
    FastReader.ReadByte { src := [], buf := [97], pos := 0, n := 1, err := none } =
      ((97, some Err.eof),
       { src := [], buf := [97], pos := 0, n := 0, err := some Err.eof }) :=
  c9_last_byte_carries_eof
    { src := [], buf := [97], pos := 0, n := 1, err := none } rfl rfl rfl

/-- C7: SkipSpaces consumes exactly the maximal leading run of bytes from
the whitespace set (space 0x20, tab 0x09, CR 0x0D, LF 0x0A) of the
remaining stream — the state afterwards has the dropWhile of the stream —
and it returns success for every conforming input, in particular when the
whitespace run reaches the end of the input. -/
theorem c7_skipspaces_maximal_run (fr : FastReader) (h : Good fr) :
    (fr.SkipSpaces).1 = none ∧
    (fr.SkipSpaces).2.stream = fr.stream.dropWhile isWS ∧
    Good (fr.SkipSpaces).2 := by
  have hmain := SkipSpaces_good fr h
  exact ⟨hmain.1, hmain.2.2.1, hmain.2.1⟩

theorem c7_skipspaces_maximal_run_witness :
    ((mkRd [32, 9, 13, 10]).SkipSpaces).1 = none ∧
    ((mkRd [32, 9, 13, 10]).SkipSpaces).2.stream =
      List.dropWhile isWS (mkRd [32, 9, 13, 10]).stream ∧
    Good ((mkRd [32, 9, 13, 10]).SkipSpaces).2 :=
  c7_skipspaces_maximal_run (mkRd [32, 9, 13, 10]) (by decide)

/-- C5: once a sticky error has been reported and the buffered bytes are
exhausted (position has reached validLength), ReadByte, PeekByte, NextInt,
NextWord and NextLine all return that same error and leave the reader
state completely unchanged — in particular the remaining source script is
untouched, so the engine makes no further Read calls on the source, and
every subsequent call keeps returning the same error. -/
theorem c5_sticky_error_terminal (fr : FastReader) (e : Err) (he : fr.err = some e)
    (hx : fr.n ≤ fr.pos) :
    fr.ReadByte = ((0, some e), fr) ∧ fr.PeekByte = ((0, some e), fr) ∧
    fr.NextInt = ((0, some e), fr) ∧ fr.NextWord = (([], some e), fr) ∧
    fr.NextLine = (([], some e), fr) := by
  have hnp : ¬ fr.pos < fr.n := by omega
  have hED : fr.ensureData = (some e, fr) := by
    simp [FastReader.ensureData, he, hnp]
  have hRB : fr.ReadByte = ((0, some e), fr) := by
    simp [FastReader.ReadByte, hED]
  have hPK : fr.PeekByte = ((0, some e), fr) := by
    simp [FastReader.PeekByte, hED]
  obtain ⟨m, hm⟩ : ∃ m, fr.readFuel = m + 1 :=
    ⟨fr.readFuel - 1, by unfold FastReader.readFuel; omega⟩
  by_cases heof : e = Err.eof
  · subst heof
    have hSS : fr.SkipSpaces = (none, fr) := by
      unfold FastReader.SkipSpaces
      rw [hm]
      simp [SkipSpacesF, hPK]
    refine ⟨hRB, hPK, ?_, ?_, ?_⟩
    · simp [FastReader.NextInt, hSS, hPK]
    · have hNW : fr.NextWord = NextWordLoopF fr.readFuel fr [] := by
        simp [FastReader.NextWord, hSS]
      rw [hNW, hm]
      simp [NextWordLoopF, hPK]
    · unfold FastReader.NextLine
      rw [hm]
      simp [NextLineLoopF, hRB]
  · have hSS : fr.SkipSpaces = (some e, fr) := by
      unfold FastReader.SkipSpaces
      rw [hm]
      simp [SkipSpacesF, hPK, heof]
    refine ⟨hRB, hPK, ?_, ?_, ?_⟩
    · simp [FastReader.NextInt, hSS]
    · simp [FastReader.NextWord, hSS, heof]
    · unfold FastReader.NextLine
      rw [hm]
      simp [NextLineLoopF, hRB, heof]

theorem c5_sticky_error_terminal_witness :
    FastReader.ReadByte
        { src := [{ n := 1, data := [53], err := none }], buf := [0], pos := 0, n := 0,
          err := some (Err.ioErr 7) } =
      ((0, some (Err.ioErr 7)),
       { src := [{ n := 1, data := [53], err := none }], buf := [0], pos := 0, n := 0,
         err := some (Err.ioErr 7) }) ∧
    FastReader.PeekByte
        { src := [{ n := 1, data := [53], err := none }], buf := [0], pos := 0, n := 0,
          err := some (Err.ioErr 7) } =
      ((0, some (Err.ioErr 7)),
       { src := [{ n := 1, data := [53], err := none }], buf := [0], pos := 0, n := 0,
         err := some (Err.ioErr 7) }) ∧
    FastReader.NextInt
        { src := [{ n := 1, data := [53], err := none }], buf := [0], pos := 0, n := 0,
          err := some (Err.ioErr 7) } =
      ((0, some (Err.ioErr 7)),
       { src := [{ n := 1, data := [53], err := none }], buf := [0], pos := 0, n := 0,
         err := some (Err.ioErr 7) }) ∧
    FastReader.NextWord
        { src := [{ n := 1, data := [53], err := none }], buf := [0], pos := 0, n := 0,
          err := some (Err.ioErr 7) } =
      (([], some (Err.ioErr 7)),
       { src := [{ n := 1, data := [53], err := none }], buf := [0], pos := 0, n := 0,
         err := some (Err.ioErr 7) }) ∧
    FastReader.NextLine
        { src := [{ n := 1, data := [53], err := none }], buf := [0], pos := 0, n := 0,
          err := some (Err.ioErr 7) } =
      (([], some (Err.ioErr 7)),
       { src := [{ n := 1, data := [53], err := none }], buf := [0], pos := 0, n := 0,
         err := some (Err.ioErr 7) }) :=
  c5_sticky_error_terminal
    { src := [{ n := 1, data := [53], err := none }], buf := [0], pos := 0, n := 0,
      err := some (Err.ioErr 7) } (Err.ioErr 7) rfl (by decide)

/-- One sink Write call always logs exactly one entry: the slice passed. -/
theorem sinkWrite_calls (s : Sink) (p : List Nat) :
    ((s.write p).2).calls = s.calls ++ [p] := by
  unfold Sink.write
  cases hs : s.script with
  | nil => simp
  | cons r rs => cases r <;> simp

/-- C4: Flush with a sticky error set returns that error at once and the
whole state — in particular the sink, so zero sink calls — is unchanged;
with no error and an empty buffer it succeeds, again with the state and
sink untouched; otherwise it issues exactly one sink call carrying all
buffered bytes, records a wrapped sticky error when the sink fails or
accepts fewer bytes than requested, and resets the buffer to empty exactly
when the write fully succeeds. -/
theorem c4_flush_contract (fw : FastWriter) :
    (∀ e, fw.err = some e → fw.Flush = (some e, fw)) ∧
    (fw.err = none → fw.pos = 0 → fw.Flush = (none, fw)) ∧
    (fw.err = none → fw.pos ≠ 0 →
      (fw.Flush).2.sink.calls = fw.sink.calls ++ [fw.buf.take fw.pos] ∧
      (∀ n e sk, fw.sink.write (fw.buf.take fw.pos) = ((n, some e), sk) →
        fw.Flush = (some e, { fw with sink := sk, err := some (Err.wrap e) })) ∧
      (∀ n sk, fw.sink.write (fw.buf.take fw.pos) = ((n, none), sk) → n < fw.pos →
        fw.Flush = (some (Err.wrap Err.shortWrite),
          { fw with sink := sk, err := some (Err.wrap Err.shortWrite) })) ∧
      (∀ n sk, fw.sink.write (fw.buf.take fw.pos) = ((n, none), sk) → fw.pos ≤ n →
        fw.Flush = (none, { fw with sink := sk, pos := 0 }))) := by
  refine ⟨?_, ?_, ?_⟩
  · intro e he
    simp [FastWriter.Flush, he]
  · intro he hp
    simp [FastWriter.Flush, he, hp]
  · intro he hp
    refine ⟨?_, ?_, ?_, ?_⟩
    · rcases hw : fw.sink.write (fw.buf.take fw.pos) with ⟨⟨n, e⟩, sk⟩
      have hcalls : sk.calls = fw.sink.calls ++ [fw.buf.take fw.pos] := by
        have := sinkWrite_calls fw.sink (fw.buf.take fw.pos)
        rw [hw] at this
        exact this
      cases e with
      | none =>
          by_cases hn : n < fw.pos <;> simp [FastWriter.Flush, he, hp, hw, hn, hcalls]
      | some e0 => simp [FastWriter.Flush, he, hp, hw, hcalls]
    · intro n e sk hw
      simp [FastWriter.Flush, he, hp, hw]
    · intro n sk hw hn
      simp [FastWriter.Flush, he, hp, hw, hn]
    · intro n sk hw hn
      have hn2 : ¬ n < fw.pos := by omega
      simp [FastWriter.Flush, he, hp, hw, hn2]

theorem c4_flush_contract_witness :
    FastWriter.Flush
        { sink := { script := [], received := [], calls := [] }, buf := [1, 2],
          pos := 0, err := some (Err.ioErr 3), autoFlush := false, limit := 1 } =
      (some (Err.ioErr 3),
       { sink := { script := [], received := [], calls := [] }, buf := [1, 2],
         pos := 0, err := some (Err.ioErr 3), autoFlush := false, limit := 1 }) ∧
    FastWriter.Flush
        { sink := { script := [], received := [], calls := [] }, buf := [1, 2],
          pos := 0, err := none, autoFlush := false, limit := 1 } =
      (none,
       { sink := { script := [], received := [], calls := [] }, buf := [1, 2],
         pos := 0, err := none, autoFlush := false, limit := 1 }) ∧
    FastWriter.Flush
        { sink := { script := [WriteResp.acceptN 1], received := [], calls := [] },
          buf := [5, 6], pos := 2, err := none, autoFlush := false, limit := 1 } =
      (some (Err.wrap Err.shortWrite),
       { sink := { script := [], received := [5], calls := [[5, 6]] }, buf := [5, 6],
         pos := 2, err := some (Err.wrap Err.shortWrite), autoFlush := false,
         limit := 1 }) ∧
    FastWriter.Flush
        { sink := { script := [], received := [], calls := [] }, buf := [5, 6],
          pos := 2, err := none, autoFlush := false, limit := 1 } =
      (none,
       { sink := { script := [], received := [5, 6], calls := [[5, 6]] }, buf := [5, 6],
         pos := 0, err := none, autoFlush := false, limit := 1 }) := by
  refine ⟨?_, ?_, ?_, ?_⟩
  · exact (c4_flush_contract _).1 (Err.ioErr 3) rfl
  · exact (c4_flush_contract _).2.1 rfl rfl
  · exact ((c4_flush_contract _).2.2 rfl (by decide)).2.2.1 1
      { script := [], received := [5], calls := [[5, 6]] } (by decide) (by decide)
  · exact ((c4_flush_contract _).2.2 rfl (by decide)).2.2.2 2
      { script := [], received := [5, 6], calls := [[5, 6]] } (by decide) (by decide)

/-- C2 evaluated at the failing inputs.  NextLine's loop discards the byte
that ReadByte returns together with the end-of-input error, so an
unterminated final line loses its last byte: over the remaining input
"ab" (no line feed) NextLine returns only "a" — not the entire remaining
sequence — and over the remaining input "a" it returns EndOfInput with
nothing accumulated even though a nonempty unterminated line remains.
A line-feed-terminated line is returned correctly, which isolates the
divergence to the unterminated-final-line case the claim describes. -/
theorem c2_nextline_drops_final_byte :
    ((mkRd [97, 98]).NextLine).1 = ([97], none) ∧
    ((mkRd [97, 98]).NextLine).1 ≠ ([97, 98], none) ∧
    ((mkRd [97]).NextLine).1 = ([], some Err.eof) ∧
    ((mkRd [97, 98, 10]).NextLine).1 = ([97, 98], none) := by decide

/-! Call-log lemmas: every sink interaction only appends to the call log. -/

theorem take_len_succ (a l : List (List Nat)) (x : List Nat) :
    ((a ++ [x]) ++ l).take (a.length + 1) = a ++ [x] := by
  have hlen : (a ++ [x]).length = a.length + 1 := by simp
  rw [← hlen, List.take_left]

theorem Flush_callsExt (fw : FastWriter) :
    ∃ l, (fw.Flush).2.sink.calls = fw.sink.calls ++ l := by
  unfold FastWriter.Flush
  by_cases he : fw.err ≠ none
  · exact ⟨[], by simp [he]⟩
  · by_cases hp : fw.pos = 0
    · exact ⟨[], by simp [he, hp]⟩
    · rcases hw : fw.sink.write (fw.buf.take fw.pos) with ⟨⟨n, e⟩, sk⟩
      have hcalls : sk.calls = fw.sink.calls ++ [fw.buf.take fw.pos] := by
        have := sinkWrite_calls fw.sink (fw.buf.take fw.pos)
        rw [hw] at this
        exact this
      refine ⟨[fw.buf.take fw.pos], ?_⟩
      cases e with
      | none => by_cases hn : n < fw.pos <;> simp [he, hp, hw, hn, hcalls]
      | some e0 => simp [he, hp, hw, hcalls]

theorem checkWriter_callsExt (fw : FastWriter) :
    ∃ l, (fw.checkWriter).2.sink.calls = fw.sink.calls ++ l := by
  unfold FastWriter.checkWriter
  by_cases he : fw.err ≠ none
  · exact ⟨[], by simp [he]⟩
  · rcases hw : fw.sink.write [] with ⟨⟨n, e⟩, sk⟩
    have hcalls : sk.calls = fw.sink.calls ++ [[]] := by
      have := sinkWrite_calls fw.sink []
      rw [hw] at this
      exact this
    refine ⟨[[]], ?_⟩
    cases e with
    | none => simp [he, hw, hcalls]
    | some e0 => simp [he, hw, hcalls]

theorem ensureSpace_callsExt (fw : FastWriter) (k : Nat) :
    ∃ l, (fw.ensureSpace k).2.sink.calls = fw.sink.calls ++ l := by
  unfold FastWriter.ensureSpace
  by_cases he : fw.err ≠ none
  · exact ⟨[], by simp [he]⟩
  · rcases hcw : (if fw.pos = 0 then fw.checkWriter else (none, fw)) with ⟨e1, f1⟩
    have hf1 : ∃ l, f1.sink.calls = fw.sink.calls ++ l := by
      by_cases hp : fw.pos = 0
      · rw [if_pos hp] at hcw
        obtain ⟨l, hl⟩ := checkWriter_callsExt fw
        rw [hcw] at hl
        exact ⟨l, hl⟩
      · rw [if_neg hp] at hcw
        exact ⟨[], by rw [show f1 = fw from (Prod.mk.injEq _ _ _ _ ▸ hcw).2.symm]; simp⟩
    obtain ⟨l1, hl1⟩ := hf1
    cases e1 with
    | some e => exact ⟨l1, by simp [he, hcw, hl1]⟩
    | none =>
        by_cases hb : f1.buf.length < k
        · rcases hFL : f1.Flush with ⟨e2, f2⟩
          obtain ⟨l2, hl2⟩ := Flush_callsExt f1
          rw [hFL] at hl2
          cases e2 with
          | some e =>
              refine ⟨l1 ++ l2, ?_⟩
              simp only [FastWriter.ensureSpace, he, if_false, hcw, hb, if_true, hFL]
              rw [hl2, hl1, List.append_assoc]
          | none =>
              rcases hw : f2.sink.write [] with ⟨⟨n3, e3⟩, sk3⟩
              have hcalls : sk3.calls = f2.sink.calls ++ [[]] := by
                have := sinkWrite_calls f2.sink []
                rw [hw] at this
                exact this
              refine ⟨l1 ++ l2 ++ [[]], ?_⟩
              cases e3 with
              | none =>
                  simp only [FastWriter.ensureSpace, he, if_false, hcw, hb, if_true,
                    hFL, hw]
                  rw [hcalls, hl2, hl1]
                  simp [List.append_assoc]
              | some e0 =>
                  simp only [FastWriter.ensureSpace, he, if_false, hcw, hb, if_true,
                    hFL, hw]
                  rw [hcalls, hl2, hl1]
                  simp [List.append_assoc]
        · by_cases hc : f1.buf.length < f1.pos + k
          · rcases hFL : f1.Flush with ⟨e2, f2⟩
            obtain ⟨l2, hl2⟩ := Flush_callsExt f1
            rw [hFL] at hl2
            refine ⟨l1 ++ l2, ?_⟩
            simp only [FastWriter.ensureSpace, he, if_false, hcw, hb, hc, if_true, hFL]
            show f2.sink.calls = fw.sink.calls ++ (l1 ++ l2)
            rw [hl2, hl1, List.append_assoc]
          · exact ⟨l1, by simp [he, hcw, hb, hc, hl1]⟩

theorem writeLoopF_callsExt (fuel : Nat) : ∀ (fw : FastWriter) (p : List Nat) (total : Nat),
    ∃ l, (writeLoopF fuel fw p total).2.sink.calls = fw.sink.calls ++ l := by
  induction fuel with
  | zero => intro fw p total; exact ⟨[], by simp [writeLoopF]⟩
  | succ f ih =>
      intro fw p total
      by_cases hp : p = []
      · exact ⟨[], by simp [writeLoopF, hp]⟩
      · rcases hE : fw.ensureSpace p.length with ⟨e1, f1⟩
        obtain ⟨l1, hl1⟩ := ensureSpace_callsExt fw p.length
        rw [hE] at hl1
        cases e1 with
        | some e =>
            refine ⟨l1, ?_⟩
            simp only [writeLoopF, hp, if_false, hE]
            exact hl1
        | none =>
            set k := min (f1.buf.length - f1.pos) p.length with hk
            set f2 : FastWriter := { f1 with
                buf := listCopy f1.buf f1.pos (p.take k)
                pos := f1.pos + k } with hf2
            have hf2c : f2.sink.calls = fw.sink.calls ++ l1 := hl1
            by_cases haf : f2.autoFlush = true ∧ f2.limit ≤ f2.pos
            · rcases hFL : f2.Flush with ⟨e2, f3⟩
              obtain ⟨l2, hl2⟩ := Flush_callsExt f2
              rw [hFL] at hl2
              cases e2 with
              | some e =>
                  refine ⟨l1 ++ l2, ?_⟩
                  simp only [writeLoopF, hp, if_false, hE, ← hk, ← hf2, haf.1, haf.2,
                    and_self, if_true, hFL]
                  simp [haf]
                  rw [if_pos (show f1.autoFlush = true from haf.1)]
                  show f3.sink.calls = fw.sink.calls ++ (l1 ++ l2)
                  rw [hl2, hf2c, List.append_assoc]
              | none =>
                  obtain ⟨l3, hl3⟩ := ih f3 (p.drop k) (total + k)
                  refine ⟨l1 ++ l2 ++ l3, ?_⟩
                  simp only [writeLoopF, hp, if_false, hE, ← hk, ← hf2, haf.1, haf.2,
                    and_self, if_true, hFL]
                  simp [haf]
                  rw [if_pos (show f1.autoFlush = true from haf.1)]
                  rw [hl3, hl2, hf2c]
                  simp [List.append_assoc]
            · obtain ⟨l3, hl3⟩ := ih f2 (p.drop k) (total + k)
              refine ⟨l1 ++ l3, ?_⟩
              simp only [writeLoopF, hp, if_false, hE, ← hk, ← hf2]
              simp [haf]
              rw [hl3, hf2c, List.append_assoc]

theorem Flush_calls_wg (fw : FastWriter) (h : WGood fw) :
    ∃ l, (fw.Flush).2.sink.calls = fw.sink.calls ++ l ∧
      ∀ c ∈ l, c.length ≤ fw.buf.length := by
  by_cases hp : fw.pos = 0
  · rw [Flush_wg_zero fw h hp]
    exact ⟨[], by simp, by simp⟩
  · rw [Flush_wg_pos fw h hp]
    refine ⟨[fw.buf.take fw.pos], rfl, ?_⟩
    intro c hc
    simp only [List.mem_singleton] at hc
    subst hc
    simp only [List.length_take]
    omega

theorem ensureSpace_calls_wg (fw : FastWriter) (h : WGood fw) (k : Nat) :
    ∃ l, (fw.ensureSpace k).2.sink.calls = fw.sink.calls ++ l ∧
      ∀ c ∈ l, c.length ≤ fw.buf.length := by
  obtain ⟨h1, h2, h3, h4⟩ := h
  have hW : WGood fw := ⟨h1, h2, h3, h4⟩
  have herr : ¬ (fw.err ≠ none) := by simp [h1]
  by_cases hp : fw.pos = 0
  · set f1 : FastWriter := { fw with sink := sinkAfter fw.sink [] } with hf1
    have hf1W : WGood f1 := ⟨h1, rfl, h3, h4⟩
    have hstep : (if fw.pos = 0 then fw.checkWriter else (none, fw)) = (none, f1) := by
      rw [if_pos hp, checkWriter_wg fw hW]
    by_cases hb : fw.buf.length < k
    · have hFL : f1.Flush = (none, f1) := Flush_wg_zero f1 hf1W hp
      have hprobe := sinkWrite_ok f1.sink rfl []
      have hE : fw.ensureSpace k = (none, { f1 with sink := sinkAfter f1.sink [] }) := by
        simp only [FastWriter.ensureSpace, herr, if_false, hstep, hb, if_true, hFL,
          hprobe]
      rw [hE]
      exact ⟨[[], []], by simp [hf1, sinkAfter], by simp⟩
    · have hc' : ¬ f1.buf.length < f1.pos + k := by
        show ¬ fw.buf.length < fw.pos + k
        omega
      have hb' : ¬ f1.buf.length < k := hb
      have hE : fw.ensureSpace k = (none, f1) := by
        simp only [FastWriter.ensureSpace, herr, if_false, hstep, hb', hc', if_false]
      rw [hE]
      exact ⟨[[]], by simp [hf1, sinkAfter], by simp⟩
  · have hstep : (if fw.pos = 0 then fw.checkWriter else (none, fw)) = (none, fw) := by
      rw [if_neg hp]
    have hFL : fw.Flush = (none, { fw with
        pos := 0
        sink := sinkAfter fw.sink (fw.buf.take fw.pos) }) := Flush_wg_pos fw hW hp
    have htb : (fw.buf.take fw.pos).length ≤ fw.buf.length := by
      simp only [List.length_take]
      omega
    by_cases hb : fw.buf.length < k
    · set f2 : FastWriter := { fw with
          pos := 0
          sink := sinkAfter fw.sink (fw.buf.take fw.pos) } with hf2
      have hprobe := sinkWrite_ok f2.sink rfl []
      have hE : fw.ensureSpace k = (none, { f2 with sink := sinkAfter f2.sink [] }) := by
        simp only [FastWriter.ensureSpace, herr, if_false, hstep, hb, if_true, hFL,
          hprobe]
      rw [hE]
      refine ⟨[fw.buf.take fw.pos, []], by simp [hf2, sinkAfter], ?_⟩
      intro c hc
      simp only [List.mem_cons, List.mem_singleton] at hc
      rcases hc with hc | hc | hc
      · subst hc; exact htb
      · subst hc; simp
      · simp at hc
    · by_cases hc : fw.buf.length < fw.pos + k
      · have hE : fw.ensureSpace k = (none, { fw with
            pos := 0
            sink := sinkAfter fw.sink (fw.buf.take fw.pos) }) := by
          simp only [FastWriter.ensureSpace, herr, if_false, hstep, hb, hc, if_true,
            if_false, hFL]
        rw [hE]
        refine ⟨[fw.buf.take fw.pos], by simp [sinkAfter], ?_⟩
        intro c hc2
        simp only [List.mem_singleton] at hc2
        subst hc2
        exact htb
      · have hE : fw.ensureSpace k = (none, fw) := by
          simp only [FastWriter.ensureSpace, herr, if_false, hstep, hb, hc, if_false]
        rw [hE]
        exact ⟨[], by simp, by simp⟩

theorem writeLoopF_calls_wg (fuel : Nat) : ∀ (fw : FastWriter) (p : List Nat) (total : Nat),
    WGood fw → p.length + 1 ≤ fuel →
    ∃ l, (writeLoopF fuel fw p total).2.sink.calls = fw.sink.calls ++ l ∧
      ∀ c ∈ l, c.length ≤ fw.buf.length := by
  induction fuel with
  | zero => intro fw p total h hf; omega
  | succ f ih =>
      intro fw p total h hf
      by_cases hp : p = []
      · subst hp
        exact ⟨[], by simp [writeLoopF], by simp⟩
      · obtain ⟨he1, heW, heO, heB, heA, heL, heP⟩ := ensureSpace_wg fw h p.length
        obtain ⟨l1, hl1, hl1b⟩ := ensureSpace_calls_wg fw h p.length
        have hE : fw.ensureSpace p.length = (none, (fw.ensureSpace p.length).2) := by
          rw [← he1]
        set f1 := (fw.ensureSpace p.length).2 with hf1
        have hbl : f1.buf.length = fw.buf.length := by rw [heB]
        have hple : 0 < p.length := List.length_pos.2 hp
        set k := min (f1.buf.length - f1.pos) p.length with hk
        have hkle : k ≤ p.length := min_le_right _ _
        have hkpos : 0 < k := by
          rcases heP with hcase | hcase
          · rw [hk]
            have : p.length ≤ f1.buf.length - f1.pos := by omega
            omega
          · rw [hk, hcase.2, hbl]
            have := heW.2.2.2
            omega
        have hkfit : f1.pos + k ≤ f1.buf.length := by
          rw [hk]
          omega
        have hseglen : (p.take k).length = k := by
          simp only [List.length_take]
          omega
        set f2 : FastWriter := { f1 with
            buf := listCopy f1.buf f1.pos (p.take k)
            pos := f1.pos + k } with hf2
        have hf2len : f2.buf.length = f1.buf.length := by
          rw [hf2]
          exact listCopy_length f1.buf (p.take k) f1.pos (by rw [hseglen]; exact hkfit)
        have hf2W : WGood f2 := by
          refine ⟨heW.1, heW.2.1, ?_, ?_⟩
          · rw [hf2len]
            exact hkfit
          · rw [hf2len]
            exact heW.2.2.2
        have hf2c : f2.sink.calls = fw.sink.calls ++ l1 := hl1
        have hfuel2 : (p.drop k).length + 1 ≤ f := by
          simp only [List.length_drop]
          omega
        by_cases haf : f2.autoFlush = true ∧ f2.limit ≤ f2.pos
        · obtain ⟨hfl1, hflW, hflp, hflr, hflb, hflaf, hfll, hflo, hfls⟩ := Flush_wg f2 hf2W
          obtain ⟨l2, hl2, hl2b⟩ := Flush_calls_wg f2 hf2W
          set f3 := (f2.Flush).2 with hf3
          have hFL : f2.Flush = (none, f3) := by rw [hf3, ← hfl1]
          obtain ⟨l3, hl3, hl3b⟩ := ih f3 (p.drop k) (total + k) hflW hfuel2
          have hres : writeLoopF (f + 1) fw p total =
              writeLoopF f f3 (p.drop k) (total + k) := by
            simp only [writeLoopF, hp, if_false, hE]
            simp only [← hf1, ← hk, ← hf2, haf.1, haf.2, and_self, if_true, hFL]
            simp [haf]
            intro hcon
            have hcon2 : f2.autoFlush = false := hcon
            rw [haf.1] at hcon2
            simp at hcon2
          rw [hres]
          refine ⟨l1 ++ l2 ++ l3, ?_, ?_⟩
          · rw [hl3, hl2, hf2c]
            simp [List.append_assoc]
          · intro c hc
            simp only [List.mem_append] at hc
            rcases hc with (hc | hc) | hc
            · exact hl1b c hc
            · have := hl2b c hc
              rw [hf2len, hbl] at this
              exact this
            · have := hl3b c hc
              rw [show f3.buf.length = f2.buf.length from by rw [hflb], hf2len, hbl] at this
              exact this
        · obtain ⟨l3, hl3, hl3b⟩ := ih f2 (p.drop k) (total + k) hf2W hfuel2
          have hres : writeLoopF (f + 1) fw p total =
              writeLoopF f f2 (p.drop k) (total + k) := by
            simp only [writeLoopF, hp, if_false, hE]
            simp only [← hf1, ← hk, ← hf2]
            simp [haf]
          rw [hres]
          refine ⟨l1 ++ l3, ?_, ?_⟩
          · rw [hl3, hf2c]
            simp [List.append_assoc]
          · intro c hc
            simp only [List.mem_append] at hc
            rcases hc with hc | hc
            · exact hl1b c hc
            · have := hl3b c hc
              rw [hf2len, hbl] at this
              exact this

/-- Writer used in the C3 counterexample: capacity 2, empty accept-all
sink, no sticky error. -/
def c3Writer : FastWriter :=
  { sink := { script := [], received := [], calls := [] }, buf := [0, 0],
    pos := 0, err := none, autoFlush := false, limit := 1 }

/-- C3 counterexample: writing the 3-byte sequence [1,2,3] through the
capacity-2 writer does NOT forward the oversized sequence to the sink
directly, and does not bypass the internal buffer: the sink receives only
the first capacity-sized chunk [1,2] (the other two calls are zero-length
writes — no call ever carries the sequence itself), and the final byte
stays in the internal buffer (pos = 1).  Under the claim the sink would
have received [1,2,3] and the buffer would hold nothing. -/
theorem c3_no_direct_forward_counterexample :
    (c3Writer.Write [1, 2, 3]).2.sink.received = [1, 2] ∧
    (c3Writer.Write [1, 2, 3]).2.pos = 1 ∧
    (c3Writer.Write [1, 2, 3]).2.sink.calls = [[], [], [1, 2]] ∧
    ¬ ((c3Writer.Write [1, 2, 3]).2.sink.received = [1, 2, 3] ∧
       (c3Writer.Write [1, 2, 3]).2.pos = 0) ∧
    ¬ [1, 2, 3] ∈ (c3Writer.Write [1, 2, 3]).2.sink.calls := by decide

/-- C3 amended: over an accept-all sink with auto-flush off, (A) a
sequence that fits into the remaining free space is copied into the
buffer with no flush and no byte sent to the sink: the pending bytes stay
buffered, and the only sink call possibly issued is checkWriter's
zero-length probe, made exactly when the buffer is empty and the sequence
non-empty; (B) a sequence that fits into the buffer but not into the free
space triggers exactly one flush of the pending bytes and is then copied
in; (C) a sequence longer than the buffer capacity still succeeds with
every byte transferred in order (sink ++ buffer), but it travels through
the internal buffer rather than being forwarded directly: the engine
flushes pending bytes, issues zero-length writes, and every sink call it
ever makes carries at most capacity bytes — never the oversized
sequence. -/
theorem c3_oversized_goes_through_buffer (fw : FastWriter) (p : List Nat)
    (h : WGood fw) (haf : fw.autoFlush = false) :
    (p.length ≤ fw.buf.length → fw.pos + p.length ≤ fw.buf.length →
      (fw.Write p).1 = (p.length, none) ∧
      (fw.Write p).2.sink.received = fw.sink.received ∧
      (fw.Write p).2.sink.calls =
        fw.sink.calls ++ (if p = [] ∨ fw.pos ≠ 0 then [] else [[]]) ∧
      (fw.Write p).2.pos = fw.pos + p.length ∧
      wOut (fw.Write p).2 = wOut fw ++ p) ∧
    (p.length ≤ fw.buf.length → fw.buf.length < fw.pos + p.length →
      (fw.Write p).1 = (p.length, none) ∧
      (fw.Write p).2.sink.calls = fw.sink.calls ++ [fw.buf.take fw.pos] ∧
      (fw.Write p).2.pos = p.length ∧
      wOut (fw.Write p).2 = wOut fw ++ p) ∧
    (fw.buf.length < p.length →
      (fw.Write p).1 = (p.length, none) ∧
      wOut (fw.Write p).2 = wOut fw ++ p ∧
      ((∀ c ∈ fw.sink.calls, c.length ≤ fw.buf.length) →
        ∀ c ∈ (fw.Write p).2.sink.calls, c.length ≤ fw.buf.length)) := by
  obtain ⟨h1, h2, h3, h4⟩ := h
  have hW : WGood fw := ⟨h1, h2, h3, h4⟩
  have herr : ¬ (fw.err ≠ none) := by simp [h1]
  refine ⟨?_, ?_, ?_⟩
  · intro hfit hfree
    by_cases hp0 : p = []
    · subst hp0
      have hres : fw.Write [] = ((0, none), fw) := by
        unfold FastWriter.Write
        rw [if_neg herr]
        simp [writeLoopF]
      rw [hres]
      refine ⟨by simp, rfl, ?_, by simp, by simp [wOut]⟩
      rw [if_pos (Or.inl rfl)]
      simp
    have hp : p ≠ [] := hp0
    obtain ⟨m, hm⟩ : ∃ m, p.length = m + 1 := by
      cases hq : p with
      | nil => exact absurd hq hp
      | cons x xs => exact ⟨xs.length, by simp [hq]⟩
    by_cases hpos : fw.pos = 0
    · have hCW : fw.checkWriter = (none, { fw with sink := sinkAfter fw.sink [] }) :=
        checkWriter_wg fw hW
      set f1 : FastWriter := { fw with sink := sinkAfter fw.sink [] } with hf1
      have hstep : (if fw.pos = 0 then fw.checkWriter else (none, fw)) = (none, f1) := by
        rw [if_pos hpos, hCW]
      have hb : ¬ f1.buf.length < p.length := by
        show ¬ fw.buf.length < p.length
        omega
      have hc : ¬ f1.buf.length < f1.pos + p.length := by
        show ¬ fw.buf.length < fw.pos + p.length
        omega
      have hE : fw.ensureSpace p.length = (none, f1) := by
        simp only [FastWriter.ensureSpace, herr, if_false, hstep, hb, hc, if_false]
      have hkk : min (f1.buf.length - f1.pos) p.length = p.length := by
        show min (fw.buf.length - fw.pos) p.length = p.length
        omega
      have hseglen : (p.take p.length).length = p.length := by simp
      set f2 : FastWriter := { f1 with
          buf := listCopy f1.buf f1.pos (p.take p.length)
          pos := f1.pos + p.length } with hf2
      have hres : fw.Write p = ((0 + p.length, none), f2) := by
        unfold FastWriter.Write
        rw [if_neg herr]
        simp only [writeLoopF, hp, if_false, hE, hkk, ← hf2]
        have hnoaf : ¬ (f2.autoFlush = true ∧ f2.limit ≤ f2.pos) := by
          intro hx
          have : f2.autoFlush = false := haf
          rw [hx.1] at this
          simp at this
        simp only [hnoaf, if_false]
        rw [show List.drop p.length p = [] from by simp]
        rw [hm]
        simp [writeLoopF]
      rw [hres]
      refine ⟨by simp, ?_, ?_, ?_, ?_⟩
      · show (sinkAfter fw.sink []).received = fw.sink.received
        simp [sinkAfter]
      · rw [if_neg (by
          rintro (hx | hx)
          exacts [hp hx, hx hpos])]
        show (sinkAfter fw.sink []).calls = fw.sink.calls ++ [[]]
        simp [sinkAfter]
      · show f1.pos + p.length = fw.pos + p.length
        rfl
      · show f2.sink.received ++ f2.buf.take f2.pos = wOut fw ++ p
        rw [hf2]
        have hlen2 : f1.pos + p.length = f1.pos + (p.take p.length).length := by
          rw [hseglen]
        simp only [hlen2]
        rw [listCopy_take f1.buf (p.take p.length) f1.pos
          (show fw.pos ≤ fw.buf.length by omega)
          (by rw [hseglen]; show fw.pos + p.length ≤ fw.buf.length; omega)]
        show (sinkAfter fw.sink []).received ++ (fw.buf.take fw.pos ++ p.take p.length)
          = wOut fw ++ p
        simp [sinkAfter, wOut, List.append_assoc]
    · have hstep : (if fw.pos = 0 then fw.checkWriter else (none, fw)) = (none, fw) := by
        rw [if_neg hpos]
      have hb : ¬ fw.buf.length < p.length := by omega
      have hc : ¬ fw.buf.length < fw.pos + p.length := by omega
      have hE : fw.ensureSpace p.length = (none, fw) := by
        simp only [FastWriter.ensureSpace, herr, if_false, hstep, hb, hc, if_false]
      have hkk : min (fw.buf.length - fw.pos) p.length = p.length := by omega
      have hseglen : (p.take p.length).length = p.length := by simp
      set f2 : FastWriter := { fw with
          buf := listCopy fw.buf fw.pos (p.take p.length)
          pos := fw.pos + p.length } with hf2
      have hres : fw.Write p = ((0 + p.length, none), f2) := by
        unfold FastWriter.Write
        rw [if_neg herr]
        simp only [writeLoopF, hp, if_false, hE, hkk, ← hf2]
        have hnoaf : ¬ (f2.autoFlush = true ∧ f2.limit ≤ f2.pos) := by
          intro hx
          have : f2.autoFlush = false := haf
          rw [hx.1] at this
          simp at this
        simp only [hnoaf, if_false]
        rw [show List.drop p.length p = [] from by simp]
        rw [hm]
        simp [writeLoopF]
      rw [hres]
      refine ⟨by simp, rfl, ?_, rfl, ?_⟩
      · rw [if_pos (Or.inr hpos)]
        simp
      · show f2.sink.received ++ f2.buf.take f2.pos = wOut fw ++ p
        rw [hf2]
        have hlen2 : fw.pos + p.length = fw.pos + (p.take p.length).length := by
          rw [hseglen]
        simp only [hlen2]
        rw [listCopy_take fw.buf (p.take p.length) fw.pos (by omega) (by rw [hseglen]; omega)]
        simp [wOut, List.append_assoc]
  · intro hfit hover
    have hpos : fw.pos ≠ 0 := by
      intro hx
      rw [hx] at hover
      omega
    have hp : p ≠ [] := by
      intro hx
      subst hx
      simp at hover
      omega
    obtain ⟨m, hm⟩ : ∃ m, p.length = m + 1 := by
      cases hq : p with
      | nil => exact absurd hq hp
      | cons x xs => exact ⟨xs.length, by simp [hq]⟩
    have hstep : (if fw.pos = 0 then fw.checkWriter else (none, fw)) = (none, fw) := by
      rw [if_neg hpos]
    have hb : ¬ fw.buf.length < p.length := by omega
    have hFL : fw.Flush = (none, { fw with
        pos := 0
        sink := sinkAfter fw.sink (fw.buf.take fw.pos) }) := Flush_wg_pos fw hW hpos
    set f1 : FastWriter := { fw with
        pos := 0
        sink := sinkAfter fw.sink (fw.buf.take fw.pos) } with hf1
    have hE : fw.ensureSpace p.length = (none, f1) := by
      simp only [FastWriter.ensureSpace, herr, if_false, hstep, hb, hover, if_true,
        if_false, hFL]
    have hkk : min (f1.buf.length - f1.pos) p.length = p.length := by
      show min (fw.buf.length - 0) p.length = p.length
      omega
    have hseglen : (p.take p.length).length = p.length := by simp
    set f2 : FastWriter := { f1 with
        buf := listCopy f1.buf f1.pos (p.take p.length)
        pos := f1.pos + p.length } with hf2
    have hres : fw.Write p = ((0 + p.length, none), f2) := by
      unfold FastWriter.Write
      rw [if_neg herr]
      simp only [writeLoopF, hp, if_false, hE, hkk, ← hf2]
      have hnoaf : ¬ (f2.autoFlush = true ∧ f2.limit ≤ f2.pos) := by
        intro hx
        have : f2.autoFlush = false := haf
        rw [hx.1] at this
        simp at this
      simp only [hnoaf, if_false]
      rw [show List.drop p.length p = [] from by simp]
      rw [hm]
      simp [writeLoopF]
    rw [hres]
    refine ⟨by simp, by rw [hf2]; show (sinkAfter fw.sink (fw.buf.take fw.pos)).calls = _; simp [sinkAfter], by rw [hf2]; show (0 : Nat) + p.length = p.length; omega, ?_⟩
    show f2.sink.received ++ f2.buf.take f2.pos = wOut fw ++ p
    rw [hf2]
    have hlen2 : f1.pos + p.length = f1.pos + (p.take p.length).length := by
      rw [hseglen]
    simp only [hlen2]
    rw [listCopy_take f1.buf (p.take p.length) f1.pos (by show (0:Nat) ≤ _; omega)
      (by rw [hseglen]; show 0 + p.length ≤ fw.buf.length; omega)]
    show (sinkAfter fw.sink (fw.buf.take fw.pos)).received ++
      (List.take 0 fw.buf ++ p.take p.length) = wOut fw ++ p
    simp [sinkAfter, wOut, List.append_assoc]
  · intro hover
    have hmain := Write_wg fw p hW
    obtain ⟨l, hl, hlb⟩ := writeLoopF_calls_wg (p.length + 1) fw p 0 hW (le_refl _)
    have hcalls : (fw.Write p).2.sink.calls = fw.sink.calls ++ l := by
      unfold FastWriter.Write
      rw [if_neg herr]
      exact hl
    refine ⟨hmain.1, hmain.2.2.1, ?_⟩
    intro hbound c hc
    rw [hcalls] at hc
    rcases List.mem_append.1 hc with hc | hc
    · exact hbound c hc
    · exact hlb c hc

theorem c3_oversized_goes_through_buffer_witness :
    ((c3Writer.Write [1]).1 = (1, none) ∧
      (c3Writer.Write [1]).2.sink.received = [] ∧
      (c3Writer.Write [1]).2.sink.calls = [[]] ∧
      (c3Writer.Write [1]).2.pos = 1) ∧
    (c3Writer.Write [1, 2, 3]).1 = (3, none) ∧
    wOut (c3Writer.Write [1, 2, 3]).2 = wOut c3Writer ++ [1, 2, 3] ∧
    (∀ c ∈ (c3Writer.Write [1, 2, 3]).2.sink.calls, c.length ≤ c3Writer.buf.length) := by
  have hA := (c3_oversized_goes_through_buffer c3Writer [1] (by decide) rfl).1
    (by decide) (by decide)
  have hmain := (c3_oversized_goes_through_buffer c3Writer [1, 2, 3]
    (by decide) rfl).2.2 (by decide)
  refine ⟨⟨hA.1, hA.2.1, ?_, hA.2.2.2.1⟩, hmain.1, hmain.2.1, hmain.2.2 (by decide)⟩
  rw [hA.2.2.1]
  decide

/-- When the buffer is empty and no sticky error is set, ensureSpace's
first sink interaction is the zero-length probe write. -/
theorem ensureSpace_probe_first (fw : FastWriter) (k : Nat) (hp : fw.pos = 0)
    (he : fw.err = none) :
    ∃ l, (fw.ensureSpace k).2.sink.calls = (fw.sink.calls ++ [[]]) ++ l := by
  have herr : ¬ (fw.err ≠ none) := by simp [he]
  rcases hw : fw.sink.write [] with ⟨⟨n0, e0⟩, sk0⟩
  have hcalls : sk0.calls = fw.sink.calls ++ [[]] := by
    have := sinkWrite_calls fw.sink []
    rw [hw] at this
    exact this
  cases e0 with
  | some e =>
      have hcw : fw.checkWriter =
          (some (Err.wrap e), { fw with sink := sk0, err := some (Err.wrap e) }) := by
        simp [FastWriter.checkWriter, he, hw]
      have hstep : (if fw.pos = 0 then fw.checkWriter else (none, fw)) =
          (some (Err.wrap e), { fw with sink := sk0, err := some (Err.wrap e) }) := by
        rw [if_pos hp, hcw]
      refine ⟨[], ?_⟩
      simp only [FastWriter.ensureSpace, herr, if_false, hstep]
      simp [hcalls]
  | none =>
      have hcw : fw.checkWriter = (none, { fw with sink := sk0 }) := by
        simp [FastWriter.checkWriter, he, hw]
      have hstep : (if fw.pos = 0 then fw.checkWriter else (none, fw)) =
          (none, { fw with sink := sk0 }) := by
        rw [if_pos hp, hcw]
      set f1 : FastWriter := { fw with sink := sk0 } with hf1
      by_cases hb : f1.buf.length < k
      · rcases hFL : f1.Flush with ⟨e2, f2⟩
        obtain ⟨l2, hl2⟩ := Flush_callsExt f1
        rw [hFL] at hl2
        cases e2 with
        | some e =>
            refine ⟨l2, ?_⟩
            simp only [FastWriter.ensureSpace, herr, if_false, hstep, hb, if_true, hFL]
            show f2.sink.calls = (fw.sink.calls ++ [[]]) ++ l2
            rw [hl2]
            show sk0.calls ++ l2 = _
            rw [hcalls]
        | none =>
            rcases hw3 : f2.sink.write [] with ⟨⟨n3, e3⟩, sk3⟩
            have hcalls3 : sk3.calls = f2.sink.calls ++ [[]] := by
              have := sinkWrite_calls f2.sink []
              rw [hw3] at this
              exact this
            refine ⟨l2 ++ [[]], ?_⟩
            cases e3 with
            | none =>
                simp only [FastWriter.ensureSpace, herr, if_false, hstep, hb, if_true,
                  hFL, hw3]
                show sk3.calls = (fw.sink.calls ++ [[]]) ++ (l2 ++ [[]])
                rw [hcalls3, hl2]
                show (sk0.calls ++ l2) ++ [[]] = _
                rw [hcalls]
                simp [List.append_assoc]
            | some e4 =>
                simp only [FastWriter.ensureSpace, herr, if_false, hstep, hb, if_true,
                  hFL, hw3]
                show sk3.calls = (fw.sink.calls ++ [[]]) ++ (l2 ++ [[]])
                rw [hcalls3, hl2]
                show (sk0.calls ++ l2) ++ [[]] = _
                rw [hcalls]
                simp [List.append_assoc]
      · by_cases hc : f1.buf.length < f1.pos + k
        · rcases hFL : f1.Flush with ⟨e2, f2⟩
          obtain ⟨l2, hl2⟩ := Flush_callsExt f1
          rw [hFL] at hl2
          refine ⟨l2, ?_⟩
          simp only [FastWriter.ensureSpace, herr, if_false, hstep, hb, hc, if_true,
            if_false, hFL]
          show f2.sink.calls = (fw.sink.calls ++ [[]]) ++ l2
          rw [hl2]
          show sk0.calls ++ l2 = _
          rw [hcalls]
        · refine ⟨[], ?_⟩
          simp only [FastWriter.ensureSpace, herr, if_false, hstep, hb, hc, if_false]
          show sk0.calls = (fw.sink.calls ++ [[]]) ++ []
          rw [hcalls]
          simp

/-- C10: every append operation (WriteByte, Write, WriteBytes, WriteInt)
that starts with an empty buffer and no sticky error issues a zero-length
sink write as its first sink interaction (the call log right after the
old entries starts with the empty call).  If that probe fails, the
(wrapped) failure becomes the sticky error and the operation buffers
nothing: the resulting state keeps the old buffer, cursor and received
bytes, changing only the error field and the consumed sink response. -/
theorem c10_empty_buffer_probe (fw : FastWriter) (b : Nat) (p : List Nat) (v : Int)
    (hpos : fw.pos = 0) (he : fw.err = none) :
    ((fw.WriteByte b).2.sink.calls.take (fw.sink.calls.length + 1) =
      fw.sink.calls ++ [[]]) ∧
    (p ≠ [] → (fw.Write p).2.sink.calls.take (fw.sink.calls.length + 1) =
      fw.sink.calls ++ [[]]) ∧
    (∀ e rest, fw.sink.script = WriteResp.fail e :: rest →
      fw.WriteByte b = (some (Err.wrap e), { fw with
        sink := { script := rest, received := fw.sink.received,
                  calls := fw.sink.calls ++ [[]] }
        err := some (Err.wrap e) }) ∧
      (p ≠ [] → fw.Write p = ((0, some (Err.wrap e)), { fw with
        sink := { script := rest, received := fw.sink.received,
                  calls := fw.sink.calls ++ [[]] }
        err := some (Err.wrap e) })) ∧
      (p ≠ [] → fw.WriteBytes p = (some (Err.wrap e), { fw with
        sink := { script := rest, received := fw.sink.received,
                  calls := fw.sink.calls ++ [[]] }
        err := some (Err.wrap e) })) ∧
      fw.WriteInt v = (some (Err.wrap e), { fw with
        sink := { script := rest, received := fw.sink.received,
                  calls := fw.sink.calls ++ [[]] }
        err := some (Err.wrap e) })) := by
  have herr : ¬ (fw.err ≠ none) := by simp [he]
  refine ⟨?_, ?_, ?_⟩
  · -- WriteByte issues the probe first
    obtain ⟨l, hl⟩ := ensureSpace_probe_first fw 1 hpos he
    rcases hE : fw.ensureSpace 1 with ⟨e1, f1⟩
    rw [hE] at hl
    cases e1 with
    | some e =>
        have hres : (fw.WriteByte b).2 = f1 := by
          simp [FastWriter.WriteByte, hE]
        rw [hres, hl, take_len_succ]
    | none =>
        set f2 : FastWriter := { f1 with
            buf := listCopy f1.buf f1.pos [b]
            pos := f1.pos + 1 } with hf2
        by_cases haf : f2.autoFlush = true ∧ f2.limit ≤ f2.pos
        · rcases hFL : f2.Flush with ⟨e2, f3⟩
          obtain ⟨l2, hl2⟩ := Flush_callsExt f2
          rw [hFL] at hl2
          have hres : (fw.WriteByte b).2 = f3 := by
            simp only [FastWriter.WriteByte, hE, ← hf2, hFL]
            simp [haf]
            rw [if_pos (show f1.autoFlush = true from haf.1)]
          rw [hres, hl2]
          show (f2.sink.calls ++ l2).take (fw.sink.calls.length + 1) = _
          have : f2.sink.calls = f1.sink.calls := rfl
          rw [this, hl, List.append_assoc, take_len_succ]
        · have hres : (fw.WriteByte b).2 = f2 := by
            simp only [FastWriter.WriteByte, hE, ← hf2]
            simp [haf]
          rw [hres]
          show f1.sink.calls.take (fw.sink.calls.length + 1) = _
          rw [hl, take_len_succ]
  · -- Write issues the probe first
    intro hp
    obtain ⟨l, hl⟩ := ensureSpace_probe_first fw p.length hpos he
    rcases hE : fw.ensureSpace p.length with ⟨e1, f1⟩
    rw [hE] at hl
    have hW : fw.Write p = writeLoopF (p.length + 1) fw p 0 := by
      unfold FastWriter.Write
      rw [if_neg herr]
    cases e1 with
    | some e =>
        have hres : (fw.Write p).2 = f1 := by
          rw [hW]
          simp only [writeLoopF, hp, if_false, hE]
        rw [hres, hl, take_len_succ]
    | none =>
        set k := min (f1.buf.length - f1.pos) p.length with hk
        set f2 : FastWriter := { f1 with
            buf := listCopy f1.buf f1.pos (p.take k)
            pos := f1.pos + k } with hf2
        have hf2c : f2.sink.calls = f1.sink.calls := rfl
        by_cases haf : f2.autoFlush = true ∧ f2.limit ≤ f2.pos
        · rcases hFL : f2.Flush with ⟨e2, f3⟩
          obtain ⟨l2, hl2⟩ := Flush_callsExt f2
          rw [hFL] at hl2
          cases e2 with
          | some e =>
              have hres : (fw.Write p).2 = f3 := by
                rw [hW]
                simp only [writeLoopF, hp, if_false, hE, ← hk, ← hf2, hFL]
                simp [haf]
                rw [if_pos (show f1.autoFlush = true from haf.1)]
              rw [hres, hl2, hf2c, hl, List.append_assoc, take_len_succ]
          | none =>
              obtain ⟨l3, hl3⟩ := writeLoopF_callsExt (p.length) f3 (p.drop k) (0 + k)
              have hres : (fw.Write p).2 =
                  (writeLoopF p.length f3 (p.drop k) (0 + k)).2 := by
                rw [hW]
                simp only [writeLoopF, hp, if_false, hE, ← hk, ← hf2, hFL]
                simp [haf]
                rw [if_pos (show f1.autoFlush = true from haf.1)]
              rw [hres, hl3, hl2, hf2c, hl]
              rw [List.append_assoc, List.append_assoc, ← List.append_assoc l l2,
                take_len_succ]
        · obtain ⟨l3, hl3⟩ := writeLoopF_callsExt (p.length) f2 (p.drop k) (0 + k)
          have hres : (fw.Write p).2 =
              (writeLoopF p.length f2 (p.drop k) (0 + k)).2 := by
            rw [hW]
            simp only [writeLoopF, hp, if_false, hE, ← hk, ← hf2]
            simp [haf]
          rw [hres, hl3, hf2c, hl, List.append_assoc, take_len_succ]
  · -- a failing probe becomes the sticky error with nothing buffered
    intro e rest hscript
    have hw : fw.sink.write [] = ((0, some e),
        { script := rest, received := fw.sink.received,
          calls := fw.sink.calls ++ [[]] }) := by
      simp [Sink.write, hscript]
    set fwE : FastWriter := { fw with
        sink := { script := rest, received := fw.sink.received,
                  calls := fw.sink.calls ++ [[]] }
        err := some (Err.wrap e) } with hfwE
    have hcw : fw.checkWriter = (some (Err.wrap e), fwE) := by
      simp [FastWriter.checkWriter, he, hw, hfwE]
    have hstep : ∀ k : Nat, fw.ensureSpace k = (some (Err.wrap e), fwE) := by
      intro k
      have hstep1 : (if fw.pos = 0 then fw.checkWriter else (none, fw)) =
          (some (Err.wrap e), fwE) := by
        rw [if_pos hpos, hcw]
      simp only [FastWriter.ensureSpace, herr, if_false, hstep1]
    have hWB : fw.WriteByte b = (some (Err.wrap e), fwE) := by
      simp [FastWriter.WriteByte, hstep 1]
    have hWr : ∀ q : List Nat, q ≠ [] → fw.Write q = ((0, some (Err.wrap e)), fwE) := by
      intro q hq
      unfold FastWriter.Write
      rw [if_neg herr]
      simp only [writeLoopF, hq, if_false, hstep q.length]
    refine ⟨hWB, fun hp => hWr p hp, fun hp => ?_, ?_⟩
    · unfold FastWriter.WriteBytes
      rw [hWr p hp]
    · unfold FastWriter.WriteInt FastWriter.WriteBytes
      rw [hWr (intDec v) ?_]
      unfold intDec
      by_cases hv : v < 0
      · simp [hv]
      · simp only [hv, if_false]
        exact natDec_ne_nil _

theorem c10_empty_buffer_probe_witness :
    FastWriter.WriteByte
        { sink := { script := [WriteResp.fail (Err.ioErr 9)], received := [],
                    calls := [] },
          buf := [0, 0], pos := 0, err := none, autoFlush := false, limit := 1 } 7 =
      (some (Err.wrap (Err.ioErr 9)),
       { sink := { script := [], received := [], calls := [[]] }, buf := [0, 0],
         pos := 0, err := some (Err.wrap (Err.ioErr 9)), autoFlush := false,
         limit := 1 }) :=
  ((c10_empty_buffer_probe
    { sink := { script := [WriteResp.fail (Err.ioErr 9)], received := [], calls := [] },
      buf := [0, 0], pos := 0, err := none, autoFlush := false, limit := 1 }
    7 [1] 5 rfl rfl).2.2 (Err.ioErr 9) [] rfl).1

/-- NextInt preserves conformance of the reader state: whatever the parse
outcome (including the malformed-number error), the post state is again a
conforming state, whose sticky error field is therefore either unset or
the end-of-input condition — never the malformed-number error. -/
theorem NextInt_good_preserved (fr : FastReader) (h : Good fr) :
    Good (fr.NextInt).2 := by
  obtain ⟨hsk1, hskG, hskS, hskE1, hskE2⟩ := SkipSpaces_good fr h
  have hSS : fr.SkipSpaces = (none, (fr.SkipSpaces).2) := by rw [← hsk1]
  set s1 := (fr.SkipSpaces).2 with hs1
  cases hst : s1.stream with
  | nil =>
      obtain ⟨g, hPK, hGg, _, _, _⟩ := PeekByte_nil s1 hskG hst
      simp only [FastReader.NextInt, hSS, ← hs1, hPK]
      exact hGg
  | cons b rest =>
      obtain ⟨p1, hPK, hGp1, hep1, hsp1, _⟩ := PeekByte_cons s1 hskG b rest hst
      have hGf3 : Good (if b = 45 ∨ b = 43 then (p1.ReadByte).2 else p1) := by
        by_cases hs : b = 45 ∨ b = 43
        · rw [if_pos hs]
          obtain ⟨g2, hRB, hGg2, _, _, _⟩ := ReadByte_cons p1 hGp1 b rest hsp1
          rw [hRB]
          exact hGg2
        · rw [if_neg hs]
          exact hGp1
      set f3 := (if b = 45 ∨ b = 43 then (p1.ReadByte).2 else p1) with hf3
      have hfuel : f3.stream.length + 1 ≤ f3.readFuel := by
        have := readFuel_ge f3 hGf3.2.1
        omega
      obtain ⟨hlp1, hlpG, hlpS, hlpE1, hlpE2⟩ :=
        NextIntLoopF_good f3.stream f3 f3.readFuel 0 0 hGf3 rfl hfuel
      set q := (NextIntLoopF f3.readFuel f3 0 0).2 with hq
      have hLP : NextIntLoopF f3.readFuel f3 0 0 =
          (((List.foldl digStep 0 (f3.stream.takeWhile isDigit),
             0 + (f3.stream.takeWhile isDigit).length), none), q) := by
        rw [hq, ← hlp1]
      simp only [FastReader.NextInt, hSS, ← hs1, hPK, ← hf3, hLP]
      by_cases hd : 0 + (List.takeWhile isDigit f3.stream).length = 0
      · simp only [hd, if_true]
        exact hlpG
      · simp only [hd, if_false]
        exact hlpG

/-- C6: a NextInt call that consumes zero digit bytes returns the
malformed-number error as a value-level error, whether or not a sign
byte is present.  Over any conforming reader the post state is
conforming, so the sticky field never holds the malformed error (it is
unset or EndOfInput).  When a leading '+' or '-' sign byte was consumed
before the failed parse, the cursor is left exactly past the sign (the
remaining stream starts at the offending byte); with no sign byte — the
spec's "abc" case — the malformed error is returned with the cursor at
the offending byte, nothing beyond leading whitespace consumed.  And a
subsequent call on the same reader can still read a following valid
token, shown on input "+ 42": the first NextInt fails with the
malformed-number error without setting any sticky error, and the second
NextInt returns 42; the unsigned "abc" case is also evaluated
concretely. -/
theorem c6_malformed_number_not_sticky (fr : FastReader) (h : Good fr) :
    (Good (fr.NextInt).2 ∧
      ((fr.NextInt).2.err = none ∨ (fr.NextInt).2.err = some Err.eof)) ∧
    (∀ w sgn c rest, allWS w → (sgn = 45 ∨ sgn = 43) → (c < 48 ∨ 57 < c) →
      fr.stream = w ++ sgn :: c :: rest →
      (fr.NextInt).1 = (0, some (Err.msg "fastio: NextInt: no digits found")) ∧
      (fr.NextInt).2.stream = c :: rest) ∧
    (∀ w c rest, allWS w → isWS c = false → (c < 48 ∨ 57 < c) →
      c ≠ 45 → c ≠ 43 →
      fr.stream = w ++ c :: rest →
      (fr.NextInt).1 = (0, some (Err.msg "fastio: NextInt: no digits found")) ∧
      (fr.NextInt).2.stream = c :: rest) ∧
    (((mkRd [43, 32, 52, 50]).NextInt).1 =
        (0, some (Err.msg "fastio: NextInt: no digits found")) ∧
      ((mkRd [43, 32, 52, 50]).NextInt).2.err = none ∧
      ((((mkRd [43, 32, 52, 50]).NextInt).2).NextInt).1 = (42, none) ∧
      ((mkRd [97, 98, 99]).NextInt).1 =
        (0, some (Err.msg "fastio: NextInt: no digits found")) ∧
      ((mkRd [97, 98, 99]).NextInt).2.err = none ∧
      ((mkRd [97, 98, 99]).NextInt).2.stream = [97, 98, 99]) := by
  refine ⟨?_, ?_, ?_, by decide⟩
  · have hG2 := NextInt_good_preserved fr h
    refine ⟨hG2, ?_⟩
    rcases hG2.2.2.2 with he | ⟨he, _, _⟩
    · exact Or.inl he
    · exact Or.inr he
  · intro w sgn c rest hw hsgn hc hs
    obtain ⟨hsk1, hskG, hskS, hskE1, hskE2⟩ := SkipSpaces_good fr h
    have hSS : fr.SkipSpaces = (none, (fr.SkipSpaces).2) := by rw [← hsk1]
    set s1 := (fr.SkipSpaces).2 with hs1
    have hsgnWS : isWS sgn = false := by
      rcases hsgn with h45 | h43
      · rw [h45]
        decide
      · rw [h43]
        decide
    have hst : s1.stream = sgn :: (c :: rest) := by
      rw [hskS, hs, dropWhile_allWS w _ hw]
      simp [List.dropWhile_cons, hsgnWS]
    obtain ⟨p1, hPK, hGp1, hep1, hsp1, _⟩ := PeekByte_cons s1 hskG sgn (c :: rest) hst
    obtain ⟨g2, hRB, hGg2, hsg2, heg2, _⟩ := ReadByte_cons p1 hGp1 sgn (c :: rest) hsp1
    have hrne : (c :: rest : List Nat) ≠ [] := by simp
    rw [if_neg hrne] at hRB heg2
    have hfuel : g2.stream.length + 1 ≤ g2.readFuel := by
      have := readFuel_ge g2 hGg2.2.1
      omega
    obtain ⟨hlp1, hlpG, hlpS, hlpE1, hlpE2⟩ :=
      NextIntLoopF_good g2.stream g2 g2.readFuel 0 0 hGg2 rfl hfuel
    have hcdig : isDigit c = false := by
      unfold isDigit
      simp only [decide_eq_false_iff_not]
      omega
    have htkw : g2.stream.takeWhile isDigit = [] := by
      rw [hsg2]
      simp [List.takeWhile_cons, hcdig]
    have hdpw : g2.stream.dropWhile isDigit = c :: rest := by
      rw [hsg2]
      simp [List.dropWhile_cons, hcdig]
    rw [htkw] at hlp1
    simp only [List.foldl_nil, List.length_nil, Nat.add_zero] at hlp1
    rw [hdpw] at hlpS
    set q := (NextIntLoopF g2.readFuel g2 0 0).2 with hq
    have hLP : NextIntLoopF g2.readFuel g2 0 0 = (((0, 0), none), q) := by
      rw [hq, ← hlp1]
    have hNI : fr.NextInt =
        ((0, some (Err.msg "fastio: NextInt: no digits found")), q) := by
      simp only [FastReader.NextInt, hSS, ← hs1, hPK, if_pos hsgn, hRB]
      rw [hLP]
      simp
    rw [hNI]
    exact ⟨rfl, hlpS⟩
  · intro w c rest hw hcw hc hc45 hc43 hs
    obtain ⟨hsk1, hskG, hskS, hskE1, hskE2⟩ := SkipSpaces_good fr h
    have hSS : fr.SkipSpaces = (none, (fr.SkipSpaces).2) := by rw [← hsk1]
    set s1 := (fr.SkipSpaces).2 with hs1
    have hst : s1.stream = c :: rest := by
      rw [hskS, hs, dropWhile_allWS w _ hw]
      simp [List.dropWhile_cons, hcw]
    obtain ⟨p1, hPK, hGp1, hep1, hsp1, _⟩ := PeekByte_cons s1 hskG c rest hst
    have hnsgn : ¬ (c = 45 ∨ c = 43) := by
      rintro (hx | hx)
      exacts [hc45 hx, hc43 hx]
    have hfuel : p1.stream.length + 1 ≤ p1.readFuel := by
      have := readFuel_ge p1 hGp1.2.1
      omega
    obtain ⟨hlp1, hlpG, hlpS, hlpE1, hlpE2⟩ :=
      NextIntLoopF_good p1.stream p1 p1.readFuel 0 0 hGp1 rfl hfuel
    have hcdig : isDigit c = false := by
      unfold isDigit
      simp only [decide_eq_false_iff_not]
      omega
    have htkw : p1.stream.takeWhile isDigit = [] := by
      rw [hsp1]
      simp [List.takeWhile_cons, hcdig]
    have hdpw : p1.stream.dropWhile isDigit = c :: rest := by
      rw [hsp1]
      simp [List.dropWhile_cons, hcdig]
    rw [htkw] at hlp1
    simp only [List.foldl_nil, List.length_nil, Nat.add_zero] at hlp1
    rw [hdpw] at hlpS
    set q := (NextIntLoopF p1.readFuel p1 0 0).2 with hq
    have hLP : NextIntLoopF p1.readFuel p1 0 0 = (((0, 0), none), q) := by
      rw [hq, ← hlp1]
    have hNI : fr.NextInt =
        ((0, some (Err.msg "fastio: NextInt: no digits found")), q) := by
      simp only [FastReader.NextInt, hSS, ← hs1, hPK, if_neg hnsgn]
      rw [hLP]
      simp
    rw [hNI]
    exact ⟨rfl, hlpS⟩

theorem c6_malformed_number_not_sticky_witness :
    Good ((mkRd [45, 120, 32]).NextInt).2 ∧
    ((mkRd [45, 120, 32]).NextInt).1 =
      (0, some (Err.msg "fastio: NextInt: no digits found")) ∧
    ((mkRd [45, 120, 32]).NextInt).2.stream = [120, 32] ∧
    ((mkRd [97, 98, 99]).NextInt).1 =
      (0, some (Err.msg "fastio: NextInt: no digits found")) ∧
    ((mkRd [97, 98, 99]).NextInt).2.stream = [97, 98, 99] := by
  have hmain := c6_malformed_number_not_sticky (mkRd [45, 120, 32]) (by decide)
  have habc := c6_malformed_number_not_sticky (mkRd [97, 98, 99]) (by decide)
  have hsigned := hmain.2.1 [] 45 120 [32] (by decide) (by decide) (by decide) (by decide)
  have hunsigned := habc.2.2.1 [] 97 [98, 99] (by decide) (by decide) (by decide)
    (by decide) (by decide) (by decide)
  exact ⟨hmain.1.1, hsigned.1, hsigned.2, hunsigned.1, hunsigned.2⟩

/-! Buffer-coherence invariant (claim C8), over arbitrary — also
misbehaving — sources whose reported counts never exceed the capacity. -/

/-- Coherent reader state: position ≤ validLength ≤ capacity, with every
pending source response reporting at most the capacity (negative reported
counts are allowed: fill clamps them to zero). -/
def RWF (fr : FastReader) : Prop :=
  fr.pos ≤ fr.n ∧ fr.n ≤ fr.buf.length ∧
  ∀ r ∈ fr.src, r.n ≤ (fr.buf.length : Int)

instance (fr : FastReader) : Decidable (RWF fr) := by
  unfold RWF; infer_instance

theorem fill_pos_zero (fr : FastReader) (he : fr.err = none) : (fr.fill).pos = 0 := by
  unfold FastReader.fill
  rw [he]
  cases hsc : fr.src <;> simp

theorem fill_rwf (fr : FastReader) (h : RWF fr) :
    RWF fr.fill ∧ (fr.fill).buf.length = fr.buf.length := by
  obtain ⟨h1, h2, h3⟩ := h
  unfold FastReader.fill
  by_cases he : fr.err.isSome
  · rw [if_pos he]
    exact ⟨⟨h1, h2, h3⟩, rfl⟩
  · rw [if_neg he]
    cases hsc : fr.src with
    | nil =>
        refine ⟨⟨Nat.le_refl 0, Nat.zero_le _, ?_⟩, rfl⟩
        intro r hr
        simp at hr
    | cons r rs =>
        have hrm : r ∈ fr.src := by rw [hsc]; exact List.mem_cons_self _ _
        have hlen : (overwriteFront fr.buf r.data).length = fr.buf.length :=
          overwriteFront_length _ _
        refine ⟨⟨Nat.zero_le _, ?_, ?_⟩, hlen⟩
        · show r.n.toNat ≤ (overwriteFront fr.buf r.data).length
          rw [hlen]
          exact Int.toNat_le.2 (h3 r hrm)
        · intro q hq
          show q.n ≤ ((overwriteFront fr.buf r.data).length : Int)
          rw [hlen]
          refine h3 q ?_
          rw [hsc]
          exact List.mem_cons_of_mem _ hq

/-- Case normal form of ensureData, with the let-bindings expanded. -/
theorem ensureData_cases (fr : FastReader) :
    fr.ensureData =
      if fr.err ≠ none ∧ ¬(fr.err = some Err.eof ∧ fr.pos < fr.n) then (fr.err, fr)
      else if fr.n ≤ fr.pos then
        if (fr.fill).n = 0 then
          if (fr.fill).err = none then
            (some Err.eof, { fr.fill with err := some Err.eof })
          else ((fr.fill).err, fr.fill)
        else (none, fr.fill)
      else (none, fr) := by
  unfold FastReader.ensureData
  by_cases h3 : (fr.fill).n = 0 <;> by_cases h4 : (fr.fill).err = none <;>
    simp [h3, h4]

theorem ensureData_rwf (fr : FastReader) (h : RWF fr) :
    (RWF (fr.ensureData).2 ∧ (fr.ensureData).2.buf.length = fr.buf.length) ∧
    ((fr.ensureData).1 = none → (fr.ensureData).2.pos < (fr.ensureData).2.n) := by
  rw [ensureData_cases]
  by_cases h1 : fr.err ≠ none ∧ ¬(fr.err = some Err.eof ∧ fr.pos < fr.n)
  · rw [if_pos h1]
    exact ⟨⟨h, rfl⟩, fun habs => absurd habs h1.1⟩
  · rw [if_neg h1]
    by_cases h2 : fr.n ≤ fr.pos
    · rw [if_pos h2]
      have he : fr.err = none := by
        rcases hx : fr.err with _ | e
        · rfl
        · exfalso
          apply h1
          refine ⟨by simp [hx], ?_⟩
          rintro ⟨-, hlt⟩
          omega
      obtain ⟨hfW, hfL⟩ := fill_rwf fr h
      by_cases h3 : (fr.fill).n = 0
      · rw [if_pos h3]
        by_cases h4 : (fr.fill).err = none
        · rw [if_pos h4]
          refine ⟨⟨hfW, hfL⟩, ?_⟩
          intro habs
          simp at habs
        · rw [if_neg h4]
          exact ⟨⟨hfW, hfL⟩, fun habs => absurd habs h4⟩
      · rw [if_neg h3]
        refine ⟨⟨hfW, hfL⟩, ?_⟩
        intro _
        show (fr.fill).pos < (fr.fill).n
        rw [fill_pos_zero fr he]
        omega
    · rw [if_neg h2]
      exact ⟨⟨h, rfl⟩, fun _ => show fr.pos < fr.n by omega⟩

theorem PeekByte_rwf (fr : FastReader) (h : RWF fr) : RWF (fr.PeekByte).2 := by
  have hE := (ensureData_rwf fr h).1.1
  unfold FastReader.PeekByte
  rcases hED : fr.ensureData with ⟨e, f1⟩
  rw [hED] at hE
  cases e
  · exact hE
  · exact hE

theorem ReadByte_rwf (fr : FastReader) (h : RWF fr) : RWF (fr.ReadByte).2 := by
  obtain ⟨⟨hG, hL⟩, hlt⟩ := ensureData_rwf fr h
  unfold FastReader.ReadByte
  rcases hED : fr.ensureData with ⟨e, f1⟩
  rw [hED] at hG hL hlt
  cases e with
  | some e => exact hG
  | none =>
    have hpl : f1.pos < f1.n := hlt rfl
    obtain ⟨hg1, hg2, hg3⟩ := hG
    have h2W : RWF { f1 with pos := f1.pos + 1 } :=
      ⟨show f1.pos + 1 ≤ f1.n by omega, hg2, hg3⟩
    obtain ⟨hfW, hfL⟩ := fill_rwf { f1 with pos := f1.pos + 1 } h2W
    simp only
    by_cases hc : f1.n ≤ f1.pos + 1
    · rw [if_pos hc]
      by_cases he2 : f1.err = none
      · simp only [if_pos he2]
        by_cases h30 : (FastReader.fill { f1 with pos := f1.pos + 1 }).n = 0
        · rw [if_pos h30]
          by_cases h4 : (FastReader.fill { f1 with pos := f1.pos + 1 }).err = none
          · simp only [if_pos h4]
            exact hfW
          · simp only [if_neg h4]
            exact hfW
        · rw [if_neg h30]
          by_cases h5 : (FastReader.fill { f1 with pos := f1.pos + 1 }).n ≤
              (FastReader.fill { f1 with pos := f1.pos + 1 }).pos ∧
              (FastReader.fill { f1 with pos := f1.pos + 1 }).err ≠ none
          · rw [if_pos h5]
            exact hfW
          · rw [if_neg h5]
            exact hfW
      · simp only [if_neg he2]
        by_cases h30 : f1.n = 0
        · rw [if_pos h30]
          by_cases h4 : f1.err = none
          · simp only [if_pos h4]
            exact h2W
          · simp only [if_neg h4]
            exact h2W
        · rw [if_neg h30]
          by_cases h5 : f1.n ≤ f1.pos + 1 ∧ f1.err ≠ none
          · rw [if_pos h5]
            exact h2W
          · rw [if_neg h5]
            exact h2W
    · rw [if_neg hc]
      have h5 : ¬(f1.n ≤ f1.pos + 1 ∧ f1.err ≠ none) := fun hx => hc hx.1
      rw [if_neg h5]
      exact h2W

theorem PeekByte_fst (fr : FastReader) (h : (fr.ensureData).1 = none) :
    (fr.PeekByte).1.1 = (fr.ensureData).2.buf.getD (fr.ensureData).2.pos 0 := by
  unfold FastReader.PeekByte
  rcases hED : fr.ensureData with ⟨e, f1⟩
  rw [hED] at h
  cases e
  · rfl
  · simp at h

theorem ReadByte_fst (fr : FastReader) (h : (fr.ensureData).1 = none) :
    (fr.ReadByte).1.1 = (fr.ensureData).2.buf.getD (fr.ensureData).2.pos 0 := by
  unfold FastReader.ReadByte
  rcases hED : fr.ensureData with ⟨e, f1⟩
  rw [hED] at h
  cases e
  · simp only
    by_cases hc : f1.n ≤ f1.pos + 1
    · rw [if_pos hc]
      by_cases he2 : f1.err = none
      · simp only [if_pos he2]
        by_cases h30 : (FastReader.fill { f1 with pos := f1.pos + 1 }).n = 0
        · rw [if_pos h30]
        · rw [if_neg h30]
          by_cases h5 : (FastReader.fill { f1 with pos := f1.pos + 1 }).n ≤
              (FastReader.fill { f1 with pos := f1.pos + 1 }).pos ∧
              (FastReader.fill { f1 with pos := f1.pos + 1 }).err ≠ none
          · rw [if_pos h5]
          · rw [if_neg h5]
      · simp only [if_neg he2]
        by_cases h30 : f1.n = 0
        · rw [if_pos h30]
        · rw [if_neg h30]
          by_cases h5 : f1.n ≤ f1.pos + 1 ∧ f1.err ≠ none
          · rw [if_pos h5]
          · rw [if_neg h5]
    · rw [if_neg hc]
      have h5 : ¬(f1.n ≤ f1.pos + 1 ∧ f1.err ≠ none) := fun hx => hc hx.1
      rw [if_neg h5]
  · simp at h

theorem fill_clamp (fr : FastReader) (r : ReadResp) (rs : List ReadResp)
    (he : fr.err = none) (hs : fr.src = r :: rs) (hn : r.n < 0) :
    (fr.fill).n = 0 ∧ (fr.fill).pos = 0 := by
  unfold FastReader.fill
  rw [he, hs]
  simp only [Option.isSome_none, Bool.false_eq_true, if_false]
  exact ⟨Int.toNat_of_nonpos (le_of_lt hn), trivial⟩

theorem SkipSpacesF_rwf : ∀ (fuel : Nat) (fr : FastReader), RWF fr →
    RWF (SkipSpacesF fuel fr).2 := by
  intro fuel
  induction fuel with
  | zero => intro fr h; exact h
  | succ fuel ih =>
    intro fr h
    have hP := PeekByte_rwf fr h
    unfold SkipSpacesF
    rcases hPK : fr.PeekByte with ⟨⟨b, e⟩, f1⟩
    rw [hPK] at hP
    cases e with
    | some e =>
      show RWF (if e = Err.eof then ((none : Option Err), f1) else (some e, f1)).2
      by_cases he : e = Err.eof
      · rw [if_pos he]; exact hP
      · rw [if_neg he]; exact hP
    | none =>
      show RWF (if isWS b then SkipSpacesF fuel (f1.ReadByte).2 else ((none : Option Err), f1)).2
      by_cases hw : isWS b = true
      · rw [if_pos hw]
        exact ih _ (ReadByte_rwf f1 hP)
      · rw [if_neg hw]
        exact hP

theorem NextWordLoopF_rwf : ∀ (fuel : Nat) (fr : FastReader) (acc : List Nat), RWF fr →
    RWF (NextWordLoopF fuel fr acc).2 := by
  intro fuel
  induction fuel with
  | zero => intro fr acc h; exact h
  | succ fuel ih =>
    intro fr acc h
    have hP := PeekByte_rwf fr h
    unfold NextWordLoopF
    rcases hPK : fr.PeekByte with ⟨⟨b, e⟩, f1⟩
    rw [hPK] at hP
    cases e with
    | some e =>
      show RWF (if e = Err.eof then
          (if acc = [] then (([], some Err.eof), f1) else ((acc, none), f1))
        else (([], some e), f1)).2
      by_cases he : e = Err.eof
      · rw [if_pos he]
        by_cases ha : acc = []
        · rw [if_pos ha]; exact hP
        · rw [if_neg ha]; exact hP
      · rw [if_neg he]; exact hP
    | none =>
      show RWF (if isWS b then
          (if acc = [] then (([], some Err.eof), f1) else ((acc, none), f1))
        else NextWordLoopF fuel (f1.ReadByte).2 (acc ++ [b])).2
      by_cases hw : isWS b = true
      · rw [if_pos hw]
        by_cases ha : acc = []
        · rw [if_pos ha]; exact hP
        · rw [if_neg ha]; exact hP
      · rw [if_neg hw]
        exact ih _ _ (ReadByte_rwf f1 hP)

theorem NextIntLoopF_rwf : ∀ (fuel : Nat) (fr : FastReader) (v : Int) (d : Nat), RWF fr →
    RWF (NextIntLoopF fuel fr v d).2 := by
  intro fuel
  induction fuel with
  | zero => intro fr v d h; exact h
  | succ fuel ih =>
    intro fr v d h
    have hP := PeekByte_rwf fr h
    unfold NextIntLoopF
    rcases hPK : fr.PeekByte with ⟨⟨b, e⟩, f1⟩
    rw [hPK] at hP
    cases e with
    | some e =>
      show RWF (if e = Err.eof then (((v, d), (none : Option Err)), f1)
        else (((0, d), some e), f1)).2
      by_cases he : e = Err.eof
      · rw [if_pos he]; exact hP
      · rw [if_neg he]; exact hP
    | none =>
      show RWF (if b < 48 ∨ 57 < b then (((v, d), (none : Option Err)), f1)
        else NextIntLoopF fuel (f1.ReadByte).2 (digStep v b) (d + 1)).2
      by_cases hb : b < 48 ∨ 57 < b
      · rw [if_pos hb]; exact hP
      · rw [if_neg hb]
        exact ih _ _ _ (ReadByte_rwf f1 hP)

theorem NextLineLoopF_rwf : ∀ (fuel : Nat) (fr : FastReader) (acc : List Nat), RWF fr →
    RWF (NextLineLoopF fuel fr acc).2 := by
  intro fuel
  induction fuel with
  | zero => intro fr acc h; exact h
  | succ fuel ih =>
    intro fr acc h
    have hR := ReadByte_rwf fr h
    unfold NextLineLoopF
    rcases hRB : fr.ReadByte with ⟨⟨b, e⟩, f1⟩
    rw [hRB] at hR
    cases e with
    | some e =>
      show RWF (if e = Err.eof then
          (if acc = [] then (([], some Err.eof), f1) else ((stripCR acc, none), f1))
        else (([], some e), f1)).2
      by_cases he : e = Err.eof
      · rw [if_pos he]
        by_cases ha : acc = []
        · rw [if_pos ha]; exact hR
        · rw [if_neg ha]; exact hR
      · rw [if_neg he]; exact hR
    | none =>
      show RWF (if b = 10 then ((stripCR acc, (none : Option Err)), f1)
        else NextLineLoopF fuel f1 (acc ++ [b])).2
      by_cases hb : b = 10
      · rw [if_pos hb]; exact hR
      · rw [if_neg hb]
        exact ih _ _ hR

theorem SkipSpaces_rwf (fr : FastReader) (h : RWF fr) : RWF (fr.SkipSpaces).2 :=
  SkipSpacesF_rwf _ fr h

theorem NextWord_rwf (fr : FastReader) (h : RWF fr) : RWF (fr.NextWord).2 := by
  have hS := SkipSpaces_rwf fr h
  unfold FastReader.NextWord
  rcases hSS : fr.SkipSpaces with ⟨e, f1⟩
  rw [hSS] at hS
  cases e with
  | some e =>
    show RWF (if e = Err.eof then (([], some Err.eof), f1) else (([], some e), f1)).2
    by_cases he : e = Err.eof
    · rw [if_pos he]; exact hS
    · rw [if_neg he]; exact hS
  | none => exact NextWordLoopF_rwf _ f1 [] hS

theorem NextIntTail_rwf (f3 : FastReader) (sign : Int) (h : RWF f3) :
    RWF (match NextIntLoopF f3.readFuel f3 0 0 with
      | (((v, d), none), f4) =>
        if d = 0 then ((0, some (Err.msg "fastio: NextInt: no digits found")), f4)
        else ((wrap64 (sign * v), none), f4)
      | ((_, some e), f4) => ((0, some e), f4)).2 := by
  rcases hNL : NextIntLoopF f3.readFuel f3 0 0 with ⟨⟨⟨v, d⟩, e2⟩, f4⟩
  have hL := NextIntLoopF_rwf f3.readFuel f3 0 0 h
  rw [hNL] at hL
  cases e2 with
  | some e2 => exact hL
  | none =>
    show RWF (if d = 0 then ((0, some (Err.msg "fastio: NextInt: no digits found")), f4)
      else ((wrap64 (sign * v), none), f4)).2
    by_cases hd : d = 0
    · rw [if_pos hd]; exact hL
    · rw [if_neg hd]; exact hL

theorem NextInt_rwf (fr : FastReader) (h : RWF fr) : RWF (fr.NextInt).2 := by
  have hS := SkipSpaces_rwf fr h
  unfold FastReader.NextInt
  rcases hSS : fr.SkipSpaces with ⟨e, f1⟩
  rw [hSS] at hS
  cases e with
  | some e => exact hS
  | none =>
    simp only
    have hP := PeekByte_rwf f1 hS
    rcases hPK : f1.PeekByte with ⟨⟨b, e1⟩, f2⟩
    rw [hPK] at hP
    cases e1 with
    | some e1 => exact hP
    | none =>
      simp only
      by_cases hb : b = 45 ∨ b = 43
      · simp only [if_pos hb]
        exact NextIntTail_rwf _ _ (ReadByte_rwf f2 hP)
      · simp only [if_neg hb]
        exact NextIntTail_rwf _ _ hP

theorem NextLine_rwf (fr : FastReader) (h : RWF fr) : RWF (fr.NextLine).2 :=
  NextLineLoopF_rwf _ fr [] h

/-- A reader whose source misbehaves by reporting a negative byte count. -/
def c8fr : FastReader :=
  { src := [{ n := -5, data := [], err := none }], buf := [0, 0], pos := 0, n := 0,
    err := none }

/-- C8: every read-engine operation preserves the buffer invariant
0 ≤ position ≤ validLength ≤ capacity (the predicate RWF, stated over any —
also misbehaving — source whose reported counts never exceed the capacity);
whenever an operation hands a byte to the caller, that byte is read at
index `pos` of the state left by ensureData, with pos < validLength ≤
capacity, so no byte at or beyond validLength is ever exposed; and a
source response with a negative byte count is clamped by fill to
validLength zero with the cursor reset. -/
theorem c8_invariant (fr : FastReader) (h : RWF fr) :
    (RWF fr.fill ∧ RWF (fr.ensureData).2 ∧ RWF (fr.ReadByte).2 ∧ RWF (fr.PeekByte).2 ∧
      RWF (fr.SkipSpaces).2 ∧ RWF (fr.NextWord).2 ∧ RWF (fr.NextInt).2 ∧
      RWF (fr.NextLine).2) ∧
    ((fr.ensureData).1 = none →
      (fr.ensureData).2.pos < (fr.ensureData).2.n ∧
      (fr.ensureData).2.n ≤ (fr.ensureData).2.buf.length ∧
      (fr.ReadByte).1.1 = (fr.ensureData).2.buf.getD (fr.ensureData).2.pos 0 ∧
      (fr.PeekByte).1.1 = (fr.ensureData).2.buf.getD (fr.ensureData).2.pos 0) ∧
    (∀ r rs, fr.err = none → fr.src = r :: rs → r.n < 0 →
      (fr.fill).n = 0 ∧ (fr.fill).pos = 0) := by
  obtain ⟨⟨hEG, hEL⟩, hElt⟩ := ensureData_rwf fr h
  refine ⟨⟨(fill_rwf fr h).1, hEG, ReadByte_rwf fr h, PeekByte_rwf fr h,
      SkipSpaces_rwf fr h, NextWord_rwf fr h, NextInt_rwf fr h, NextLine_rwf fr h⟩, ?_, ?_⟩
  · intro hnone
    exact ⟨hElt hnone, hEG.2.1, ReadByte_fst fr hnone, PeekByte_fst fr hnone⟩
  · intro r rs he hs hn
    exact fill_clamp fr r rs he hs hn

theorem c8_invariant_witness :
    RWF c8fr ∧ RWF c8fr.fill ∧ (c8fr.fill).n = 0 ∧ (c8fr.fill).pos = 0 := by
  have hmain := c8_invariant c8fr (by decide)
  exact ⟨by decide, hmain.1.1,
    hmain.2.2 { n := -5, data := [], err := none } [] (by decide) (by decide) (by decide)⟩
